import Mathlib
/-!
Verification of the contig clustering and classification engine of
`mob_suite/mob_recon.py` (plasmid reconstruction from draft assemblies).

The Python source is embedded shallowly:

* a BLAST hit-table row becomes the structure `Hit`;
* Python dictionaries (which iterate in insertion order) become association
  lists `List (String × α)` with insertion-order preserving update
  (`alistSet`), lookup (`alistGet`) and deletion (`alistErase`);
* floating point mash distances become exact rationals `ℚ` (only order
  comparisons against the fixed threshold 0.05 are performed on them);
* the pandas sort in `contig_blast_group` becomes a stable insertion sort on
  the key (sseqid asc, sstart asc, send asc, bitscore desc).

`filter_overlaping_records` lives in `mob_suite/utils`, which is not part of
the sources under verification; it is modelled from the specification text
(see its doc comment below).
-/

namespace MobRecon

/-! ## Definitions -/

/-! ## Association lists standing in for Python dicts -/

/-- Keys of an association list, in insertion order. -/
def keys {α : Type} (l : List (String × α)) : List String := l.map Prod.fst

/-- Dictionary lookup: first binding of the key, if any. -/
def alistGet {α : Type} (l : List (String × α)) (k : String) : Option α :=
  match l with
  | [] => none
  | (k', v) :: t => if k' = k then some v else alistGet t k

/-- Dictionary update `d[k] = v`: replaces the value in place when the key is
present (Python dicts keep the original insertion position), otherwise appends
the new binding at the end. -/
def alistSet {α : Type} (l : List (String × α)) (k : String) (v : α) :
    List (String × α) :=
  match l with
  | [] => [(k, v)]
  | (k', v') :: t => if k' = k then (k, v) :: t else (k', v') :: alistSet t k v

/-- Dictionary deletion `del d[k]`: removes the first binding of the key. -/
def alistErase {α : Type} (l : List (String × α)) (k : String) :
    List (String × α) :=
  match l with
  | [] => []
  | (k', v') :: t => if k' = k then t else (k', v') :: alistErase t k

/-! ## Hit records -/

/-- One row of a (filtered) BLAST hit table, with the composite subject id
already parsed into the reference accession `pID` and the cluster tag
`clustId` (the source splits `sseqid` on the load-bearing `|` delimiter). -/
structure Hit where
  qseqid : String
  pID : String
  clustId : String
  bitscore : Int
  sstart : Int
  send : Int
  slen : Int
deriving DecidableEq, Repr

/-- The composite subject id exactly as it appears in the hit table. -/
def Hit.sseqid (h : Hit) : String := h.pID ++ "|" ++ h.clustId

/-- Sort key of `blast_df.sort_values(['sseqid','sstart','send','bitscore'],
ascending=[True,True,True,False])`: lexicographic on the subject id (compared
as its character list), start, end, and descending bitscore. -/
def hitKey (h : Hit) : (List Char) ×ₗ (Int ×ₗ (Int ×ₗ Int)) :=
  toLex (h.sseqid.data, toLex (h.sstart, toLex (h.send, -h.bitscore)))

/-- The sorting relation used on hit rows. -/
def hitLe (a b : Hit) : Prop := hitKey a ≤ hitKey b

instance : DecidableRel hitLe := fun a b =>
  inferInstanceAs (Decidable (hitKey a ≤ hitKey b))

instance : IsTotal Hit hitLe := ⟨fun a b => le_total (hitKey a) (hitKey b)⟩

instance : IsTrans Hit hitLe := ⟨fun _ _ _ h h' => le_trans h h'⟩

/-! ## Overlap resolver -/

/-- Number of bases two alignment intervals share (inclusive coordinates). -/
def overlapAmt (a b : Hit) : Int :=
  min a.send b.send - max a.sstart b.sstart + 1

/-- A row conflicts with the already-kept rows when some kept row on the same
subject overlaps it by more than the threshold with a higher (or equal,
earlier) bitscore. -/
def conflictsKept (t : Int) (kept : List Hit) (r : Hit) : Prop :=
  ∃ k ∈ kept, k.sseqid = r.sseqid ∧ overlapAmt k r > t ∧ r.bitscore ≤ k.bitscore

instance (t : Int) (kept : List Hit) (r : Hit) :
    Decidable (conflictsKept t kept r) := by
  unfold conflictsKept; infer_instance

/-- Sweep of the sorted table: keep a row unless it conflicts with a
previously kept row. -/
def sweepAux (t : Int) (kept : List Hit) : List Hit → List Hit
  | [] => kept
  | r :: rest =>
    if conflictsKept t kept r then sweepAux t kept rest
    else sweepAux t (kept ++ [r]) rest

/-- Modelled from the spec: the function `filter_overlaping_records` of
`mob_suite.utils` is called by `contig_blast_group` but `mob_suite/utils.py`
is not among the sources; per the specification's Overlap Resolver contract it
sorts by (subject id, start, end, bitscore descending) and sweeps, dropping
any interval whose overlap with a previously kept, higher (or equal, earlier)
-scored interval on the same subject exceeds the threshold. -/
def filter_overlaping_records (t : Int) (l : List Hit) : List Hit :=
  sweepAux t [] (List.insertionSort hitLe l)

/-- The fixed-point loop of `contig_blast_group` (source lines 193–199): the
overlap filter is re-applied until the record count stabilizes.  (The source
compares the counts via their decimal strings, which is equivalent.)  Each
non-final pass strictly shrinks the table, so the loop runs at most
`l.length` passes; the fuel argument makes that bound explicit and keeps the
recursion structural. -/
def resolveLoop (t : Int) : Nat → List Hit → List Hit
  | 0, l => l
  | fuel + 1, l =>
    if (filter_overlaping_records t l).length = l.length then
      filter_overlaping_records t l
    else resolveLoop t fuel (filter_overlaping_records t l)

/-- The complete Overlap Resolver as run by `contig_blast_group`: one filter
application followed by the stabilization loop. -/
def resolveFix (t : Int) (l : List Hit) : List Hit :=
  resolveLoop t (l.length + 1) (filter_overlaping_records t l)

/-! ## Cluster Aggregator: `contig_blast_group` (source lines 187–248)

After overlap resolution the source accumulates, in one pass over the rows,
`cluster_scores` (the best bitscore seen for each cluster tag, lines 215–218)
and `contigs` (per contig, the best bitscore per cluster tag, lines 226–233).
The `hits` and `groups` accumulators of the source are never read on the path
to the returned `contigs` value and are not modelled.  The clusters are then
sorted by `cluster_scores` descending (line 240, a stable sort) and processed
in that order: the first cluster in rank order that appears in a contig's map
reduces that map to the singleton for this cluster (lines 242–246). -/

/-- State of the accumulation pass of `contig_blast_group`. -/
structure CbgState where
  clusterScores : List (String × Int)
  contigs : List (String × List (String × Int))
deriving Repr

/-- `cluster_scores` update of lines 215–218: record the bitscore if the
cluster tag is new, otherwise keep the larger of old and new. -/
def bumpScore (scores : List (String × Int)) (c : String) (v : Int) :
    List (String × Int) :=
  match alistGet scores c with
  | none => alistSet scores c v
  | some cur => if cur < v then alistSet scores c v else scores

/-- `contigs[contig_id]` update of lines 229–233: default the cluster entry to
0, then raise it to the bitscore if larger. -/
def bumpInner (inner : List (String × Int)) (c : String) (v : Int) :
    List (String × Int) :=
  let inner' :=
    match alistGet inner c with
    | none => alistSet inner c 0
    | some _ => inner
  match alistGet inner' c with
  | some cur => if cur < v then alistSet inner' c v else inner'
  | none => inner'

/-- One row of the accumulation pass (source lines 205–238). -/
def cbgStep (st : CbgState) (r : Hit) : CbgState :=
  { clusterScores := bumpScore st.clusterScores r.clustId r.bitscore,
    contigs := alistSet st.contigs r.qseqid
      (bumpInner ((alistGet st.contigs r.qseqid).getD []) r.clustId
        r.bitscore) }

def cbgBuild (rows : List Hit) : CbgState :=
  rows.foldl cbgStep { clusterScores := [], contigs := [] }

/-- Ranking relation of line 240: descending bitscore (`reverse=True` of a
stable ascending sort keeps tied clusters in insertion order, which is what a
stable descending insertion sort produces as well). -/
def descVal (a b : String × Int) : Prop := b.2 ≤ a.2

instance : DecidableRel descVal := fun a b =>
  inferInstanceAs (Decidable (b.2 ≤ a.2))

instance : IsTotal (String × Int) descVal := ⟨fun a b => le_total b.2 a.2⟩

instance : IsTrans (String × Int) descVal :=
  ⟨fun _ _ _ h h' => le_trans h' h⟩

def sortedClustersDesc (cs : List (String × Int)) : List (String × Int) :=
  List.insertionSort descVal cs

/-- Effect of one ranked cluster on one contig's map (source line 246): if the
cluster is present, the map collapses to the singleton for it. -/
def claimInner (c : String) (inner : List (String × Int)) :
    List (String × Int) :=
  match alistGet inner c with
  | some s => [(c, s)]
  | none => inner

/-- Claim pass for one ranked cluster (source lines 242–246): any contig whose
current map still contains this cluster is reduced to the singleton for it. -/
def cbgClaimStep (contigs : List (String × List (String × Int))) (c : String) :
    List (String × List (String × Int)) :=
  contigs.map fun e => (e.1, claimInner c e.2)

/-- `contig_blast_group` of the source: resolve overlaps to the fixed point,
accumulate scores, then let clusters claim contigs in descending score order. -/
def contig_blast_group (t : Int) (rows : List Hit) :
    List (String × List (String × Int)) :=
  let st := cbgBuild (resolveFix t rows)
  (sortedClustersDesc st.clusterScores).foldl
    (fun contigs e => cbgClaimStep contigs e.1) st.contigs

/-- Sum of the bitscores of a cluster's member hits — the aggregate the claim
says the ranking uses. -/
def clusterSumScore (rows : List Hit) (c : String) : Int :=
  ((rows.filter fun r => r.clustId == c).map Hit.bitscore).sum

/-- Hit table on which max-bitscore ranking and sum-bitscore ranking disagree:
cluster `A` has two hits of bitscore 60 (sum 120, max 60), cluster `B` one hit
of bitscore 100 (sum 100, max 100); contig `c1` has hits to both. -/
def exHitsC2 : List Hit :=
  [{ qseqid := "c1", pID := "p1", clustId := "A", bitscore := 60,
     sstart := 1, send := 100, slen := 1000 },
   { qseqid := "c2", pID := "p2", clustId := "A", bitscore := 60,
     sstart := 1, send := 100, slen := 1000 },
   { qseqid := "c1", pID := "p3", clustId := "B", bitscore := 100,
     sstart := 1, send := 100, slen := 1000 }]

/-- Invariant of the accumulation pass of `contig_blast_group` over the rows
processed so far: `contigs` records exactly the (contig, cluster) pairs seen,
and `cluster_scores` records, per cluster, the maximum bitscore seen. -/
def CbgInv (R : List Hit) (st : CbgState) : Prop :=
  (keys st.clusterScores).Nodup ∧ (keys st.contigs).Nodup ∧
  (∀ cid inner, alistGet st.contigs cid = some inner →
    ∀ c, c ∈ keys inner ↔ ∃ r ∈ R, r.qseqid = cid ∧ r.clustId = c) ∧
  (∀ cid, (∃ r ∈ R, r.qseqid = cid) ↔ (alistGet st.contigs cid).isSome) ∧
  (∀ c, (∃ r ∈ R, r.clustId = c) ↔ (alistGet st.clusterScores c).isSome) ∧
  (∀ c v, alistGet st.clusterScores c = some v →
    (∃ r ∈ R, r.clustId = c ∧ r.bitscore = v) ∧
    ∀ r ∈ R, r.clustId = c → r.bitscore ≤ v)

/-! ### The greedy claim loop -/

/-- Cumulative effect of the claim passes on one contig's map. -/
def assignFold (cs : List String) (inner : List (String × Int)) :
    List (String × Int) :=
  cs.foldl (fun inner c => claimInner c inner) inner

/-- The first ranked cluster that appears among a contig's hit clusters. -/
def firstHitCluster : List (String × Int) → List String → Option (String × Int)
  | [], _ => none
  | (c, v) :: rest, ks => if c ∈ ks then some (c, v) else firstHitCluster rest ks

/-! ### Injectivity of the decimal rendering used in `"Novel_" + str(k)` -/

/-- Value of a decimal digit character. -/
def digitVal (c : Char) : Nat := c.toNat - 48

/-- Decimal digit list of a natural number, most significant first (a
fuel-free restatement of `Nat.toDigits 10`). -/
def decDigits (n : Nat) : List Char :=
  if n < 10 then [Nat.digitChar n]
  else decDigits (n / 10) ++ [Nat.digitChar (n % 10)]
decreasing_by exact Nat.div_lt_self (by omega) (by omega)

/-- Numeric value read back from a digit list. -/
def digitsVal (l : List Char) : Nat :=
  l.foldl (fun acc c => 10 * acc + digitVal c) 0

/-! ## The main pipeline (source lines 510–756)

Sequences are kept as strings (only their lengths and identities are
consumed); a cluster's member map `contig id → sequence` is `Members`; the
`seq_clusters` dict is `SC`. -/

/-- A cluster's member map: contig id → sequence. -/
abbrev Members : Type := List (String × String)

/-- The `seq_clusters` dict: cluster id → members. -/
abbrev SC : Type := List (String × Members)

/-- `seq_clusters[c][m] = seq` of the source. -/
def scInsert (sc : SC) (c m seq : String) : SC :=
  alistSet sc c (alistSet ((alistGet sc c).getD []) m seq)

/-- Best mash hit of a cluster (`getMashBestHit` output as consumed by the
source): nearest reference id, distance score, and its cluster tag.  The
floating point score is modelled as an exact rational; only order comparisons
against 0.05 are performed on it. -/
structure MashHit where
  top_hit : String
  mash_hit_score : Rat
  clustid : String

/-- The closeness threshold 0.05 of source lines 644 and 663. -/
def mashThreshold : Rat := ⟨1, 20, by norm_num, by norm_num⟩

/-! ### Stage A: greedy claiming into `seq_clusters` (lines 510–529) -/

/-- `cluster_bitscores` of lines 511–515: for each contig of `pcl_clusters`,
record the bitscore of its (single) cluster, last write winning.  (The source
indexes `list(pcl_clusters[seqid].keys())[0]`, which would raise on an empty
map; `contig_blast_group` never produces one, and an empty map is skipped
here.) -/
def clusterBitscores (pcl : List (String × List (String × Int))) :
    List (String × Int) :=
  pcl.foldl
    (fun acc e =>
      match e.2.head? with
      | some (cid, bs) => alistSet acc cid bs
      | none => acc) []

/-- Ascending-bitscore relation of the stable sort at line 517. -/
def ascVal (a b : String × Int) : Prop := a.2 ≤ b.2

instance : DecidableRel ascVal := fun a b =>
  inferInstanceAs (Decidable (a.2 ≤ b.2))

/-- Lines 517–518: stable ascending sort by bitscore, then reversed — so tied
clusters are processed in reverse insertion order. -/
def sortedClusterBitscores (cbs : List (String × Int)) : List (String × Int) :=
  (List.insertionSort ascVal cbs).reverse

/-- One candidate contig of the claiming loop (lines 524–529): a
still-unassigned assembly contig with a hit to the ranked cluster `c` is
claimed (its sequence stored under `c`, its id recorded in the
assignment-tracking dict). -/
def stageAClaim (contigSeqs : List (String × String)) (c : String)
    (st : SC × List (String × String)) (p : String × List (String × Int)) :
    SC × List (String × String) :=
  if c ∈ keys p.2 then
    if p.1 ∈ keys contigSeqs ∧ p.1 ∉ keys st.2 then
      (scInsert st.1 c p.1 ((alistGet contigSeqs p.1).getD ""),
       alistSet st.2 p.1 c)
    else st
  else st

/-- One ranked cluster of the claiming loop (lines 520–529): create the
cluster if needed, then claim every still-unassigned assembly contig having a
hit to it. -/
def stageAStep (contigSeqs : List (String × String))
    (pcl : List (String × List (String × Int)))
    (st : SC × List (String × String)) (e : String × Int) :
    SC × List (String × String) :=
  let sc₀ := if e.1 ∈ keys st.1 then st.1 else st.1 ++ [(e.1, [])]
  pcl.foldl (stageAClaim contigSeqs e.1) (sc₀, st.2)

def stageA (contigSeqs : List (String × String))
    (pcl : List (String × List (String × Int))) :
    SC × List (String × String) :=
  (sortedClusterBitscores (clusterBitscores pcl)).foldl
    (stageAStep contigSeqs pcl) ([], [])

/-! ### Stage B: synthetic Novel clusters for marker contigs (lines 531–559) -/

/-- State threaded through the Novel-creation loops: the (growing)
`pcl_clusters` and `seq_clusters` dicts, the `clust_id` counter, and the log
of counter values at which a `Novel_k` cluster was created. -/
structure NovelState where
  pcl : List (String × List (String × Int))
  sc : SC
  clustId : Nat
  kLog : List Nat

/-- One contig of the loops at lines 534–544 and 549–559: a marker contig not
in `pcl_clusters` gets (when it is an assembly contig) a fresh `Novel_k`
singleton cluster and a `pcl_clusters` entry; the counter advances for every
marker contig not in `pcl_clusters`.  (The source's `if not clust_id in
seq_clusters` compares the integer counter against string keys and is always
true.  In the second loop the source stores an empty dict instead of `0` as
the `pcl_clusters` bitscore; that value is only ever read for its keys, so
both loops are modelled with `0`.) -/
def novelStep (contigSeqs : List (String × String)) (st : NovelState)
    (m : String) : NovelState :=
  if m ∈ keys st.pcl then st
  else if m ∈ keys contigSeqs then
    let name := "Novel_" ++ toString st.clustId
    let sc := alistSet st.sc name []
    let pcl := alistSet st.pcl m [(name, (0 : Int))]
    let sc := scInsert sc name m ((alistGet contigSeqs m).getD "")
    { pcl := pcl, sc := sc, clustId := st.clustId + 1,
      kLog := st.kLog ++ [st.clustId] }
  else { st with clustId := st.clustId + 1 }

def stageB (contigSeqs : List (String × String))
    (mobKeys replKeys : List String)
    (pcl : List (String × List (String × Int))) (sc : SC) : NovelState :=
  let st₁ := mobKeys.foldl (novelStep contigSeqs)
    { pcl := pcl, sc := sc, clustId := 0, kLog := [] }
  replKeys.foldl (novelStep contigSeqs) st₁

/-! ### Replicon hit counts per cluster (lines 565–574) -/

/-- `replicon_clusters`: one increment per replicon **hit** of a contig,
attributed to the contig's cluster in `pcl_clusters`.  (A missing or empty
`pcl_clusters` entry would raise in the source; the count is attributed to the
empty-string cluster here, which never names a real cluster.) -/
def buildRepliconClusters (replicon : List (String × List String))
    (pcl : List (String × List (String × Int))) : List (String × Nat) :=
  replicon.foldl
    (fun acc e =>
      e.2.foldl
        (fun acc _hit =>
          let cluster :=
            match alistGet pcl e.1 with
            | some inner => ((inner.head?).getD ("", 0)).1
            | none => ""
          alistSet acc cluster ((alistGet acc cluster).getD 0 + 1)) acc)
    []

/-! ### Stage D: the Circular Splitter (lines 576–593) -/

structure SplitState where
  refined : SC
  clustId : Nat
  kLog : List Nat

/-- The split test of lines 583–584: the member is circular, the (original)
cluster has more than one member, and the cluster's replicon **hit** count
exceeds one. -/
def splitCond (circular : List String) (replClusters : List (String × Nat))
    (id : String) (origSize : Nat) (m : String) : Prop :=
  m ∈ circular ∧ origSize > 1 ∧ (alistGet replClusters id).getD 0 > 1

instance (circular : List String) (replClusters : List (String × Nat))
    (id : String) (origSize : Nat) (m : String) :
    Decidable (splitCond circular replClusters id origSize m) := by
  unfold splitCond; infer_instance

/-- One member of a cluster (lines 582–591): a circular member of a
multi-member cluster whose replicon hit count exceeds one is moved to a fresh
`Novel_k` singleton; every other member is carried over unchanged.  (The
source's `if not clust_id in refined_clusters` is again always true, so the
`Novel_k` entry is reset to an empty dict before the single member is
inserted.) -/
def splitMemberStep (circular : List String)
    (replClusters : List (String × Nat)) (id : String) (origSize : Nat)
    (st : SplitState) (mem : String × String) : SplitState :=
  if splitCond circular replClusters id origSize mem.1 then
    let name := "Novel_" ++ toString st.clustId
    { refined := scInsert (alistSet st.refined name []) name mem.1 mem.2,
      clustId := st.clustId + 1, kLog := st.kLog ++ [st.clustId] }
  else { st with refined := scInsert st.refined id mem.1 mem.2 }

/-- One cluster of the splitter (lines 576–591). -/
def splitClusterStep (circular : List String)
    (replClusters : List (String × Nat)) (st : SplitState)
    (e : String × Members) : SplitState :=
  let st₀ :=
    if e.1 ∈ keys st.refined then st
    else { st with refined := st.refined ++ [(e.1, [])] }
  e.2.foldl (splitMemberStep circular replClusters e.1 e.2.length) st₀

def stageD (circular : List String) (replClusters : List (String × Nat))
    (sc : SC) (k₀ : Nat) (kLog₀ : List Nat) : SplitState :=
  sc.foldl (splitClusterStep circular replClusters)
    { refined := [], clustId := k₀, kLog := kLog₀ }

/-! ### Stage E: Composite Classifier, Nearest-Neighbor Namer and report
(lines 596–756) -/

/-- The discard test of lines 626–628, evaluated with Python's left-to-right
short-circuiting: `none` marks the division by zero that would occur if the
repetitive fraction were evaluated with no members.  The float expression
`float(count_rep)/count_seqs*100 > 50` is compared exactly (the operands are
small integers, for which the float and rational comparisons agree). -/
def clusterDiscard (repetitive : List (String × String)) (members : Members) :
    Option Bool :=
  let countSeqs := members.length
  let countRep := (members.filter fun m => m.1 ∈ keys repetitive).length
  let countSmall := (members.filter fun m => m.2.length < 3000).length
  let total : Nat := (members.map fun m => m.2.length).sum
  if countRep = countSeqs then some true
  else if countSeqs = 0 then none
  else if countRep * 100 > 50 * countSeqs ∧ countSmall = countSeqs then
    some true
  else if total < 1500 then some true
  else some false

/-- The marker-evidence scan of lines 646–655: some member contig has a
replicon hit, is circular, or has a relaxase hit. -/
def hasMarkerEvidence (replicon mob : List (String × List String))
    (circular : List String) (members : Members) : Bool :=
  members.any fun m =>
    m.1 ∈ keys replicon ∨ m.1 ∈ circular ∨ m.1 ∈ keys mob

/-- One row of the contig report (only the fields the claims speak about;
`file_id` is constant per run and the marker/repeat description strings are
not modelled). -/
structure ReportRow where
  cluster : String
  contig : String
  contigLen : Nat
  circStatus : Bool
  mashTop : String
  mashScore : Option Rat

/-- `filter_list[contig_id] = ''` (line 631). -/
def flAdd (fl : List String) (m : String) : List String :=
  if m ∈ fl then fl else fl ++ [m]

/-- State threaded through the per-cluster loop of lines 608–739. -/
structure EmitState where
  filterList : List String
  counter : Nat
  files : List (String × Members)
  rows : List ReportRow
  nLog : List Nat

/-- One cluster of the classifier/namer/report loop (lines 608–739):
classifier discard, mash query, low-confidence drop, rename/novel naming with
file merge (the re-queried mash runs on the cluster's own unmerged temp file,
hence on the same member set), and one report row per member. -/
def processCluster (repetitive : List (String × String))
    (replicon mob : List (String × List String)) (circular : List String)
    (oracle : Members → MashHit) (st : EmitState) (e : String × Members) :
    EmitState :=
  let members := e.2
  if clusterDiscard repetitive members = some true then st
  else
    let fl₁ := members.foldl (fun fl m => flAdd fl m.1) st.filterList
    let mh := oracle members
    if mashThreshold < mh.mash_hit_score ∧
        ¬ hasMarkerEvidence replicon mob circular members then
      { st with filterList := members.foldl (fun fl m => fl.erase m.1) fl₁ }
    else
      let named :=
        if mh.mash_hit_score < mashThreshold then
          (mh.clustid, st.counter, st.nLog)
        else
          ("novel_" ++ toString st.counter, st.counter + 1,
           st.nLog ++ [st.counter])
      let fileName := "plasmid_" ++ named.1 ++ ".fasta"
      let merged :=
        if fileName ∈ keys st.files then
          (alistSet st.files fileName
            ((alistGet st.files fileName).getD [] ++ members),
           oracle members)
        else (st.files ++ [(fileName, members)], mh)
      let newRows : List ReportRow := members.map fun m =>
        { cluster := named.1, contig := m.1, contigLen := m.2.length,
          circStatus := m.1 ∈ circular, mashTop := merged.2.top_hit,
          mashScore := some merged.2.mash_hit_score }
      { filterList := fl₁, counter := named.2.1, files := merged.1,
        rows := st.rows ++ newRows, nLog := named.2.2 }

/-- Chromosome rows of lines 742–754: one row per assembly contig not claimed
by a retained cluster. -/
def chromosomeRows (contigSeqs : List (String × String))
    (circular : List String) (filterList : List String) : List ReportRow :=
  (contigSeqs.filter fun e => e.1 ∉ filterList).map fun e =>
    { cluster := "chromosome", contig := e.1, contigLen := e.2.length,
      circStatus := e.1 ∈ circular, mashTop := "", mashScore := none }

/-! ### The whole run -/

/-- The externally produced evidence consumed by the core (already filtered
hit tables, marker hits, repeat hits, circularity flags) plus the assembly. -/
structure PipelineInput where
  hits : List Hit
  minOverlap : Int
  contigSeqs : List (String × String)
  replicon : List (String × List String)
  mob : List (String × List String)
  repetitive : List (String × String)
  circular : List String

structure PipelineOut where
  pcl : List (String × List (String × Int))
  seqClustersA : SC
  seqClustersB : SC
  seqClustersD : SC
  rows : List ReportRow
  kLog : List Nat
  nLog : List Nat

/-- The contig clustering engine of `main` (lines 471 and 510–756), from the
filtered reference-plasmid hit table to the final contig report.  The mash
collaborator is an oracle from a cluster's member set to its best hit. -/
def mainPipeline (inp : PipelineInput) (oracle : Members → MashHit) :
    PipelineOut :=
  let pcl₀ := contig_blast_group inp.minOverlap inp.hits
  let stA := stageA inp.contigSeqs pcl₀
  let stB := stageB inp.contigSeqs (inp.mob.map Prod.fst)
    (inp.replicon.map Prod.fst) pcl₀ stA.1
  let replClusters := buildRepliconClusters inp.replicon stB.pcl
  let stD := stageD inp.circular replClusters stB.sc stB.clustId stB.kLog
  let stE := stD.refined.foldl
    (processCluster inp.repetitive inp.replicon inp.mob inp.circular oracle)
    { filterList := [], counter := 0, files := [], rows := [], nLog := [] }
  { pcl := stB.pcl, seqClustersA := stA.1, seqClustersB := stB.sc,
    seqClustersD := stD.refined,
    rows := stE.rows ++ chromosomeRows inp.contigSeqs inp.circular
      stE.filterList,
    kLog := stD.kLog, nLog := stE.nLog }

/-- Chronological suffixes of all synthesized cluster identifiers of a run:
every `Novel_k` (aggregation and splitting) is created before any `novel_N`
(naming), so the combined creation-order list is the concatenation. -/
def synthSuffixes (out : PipelineOut) : List Nat := out.kLog ++ out.nLog

/-! ## Composite Classifier claims -/

/-- A sequence of a prescribed length (scenario inputs). -/
def mkSeq (n : Nat) : String := String.mk (List.replicate n 'A')

/-- Initial state of the classifier/namer loop. -/
def emptyEmit : EmitState :=
  { filterList := [], counter := 0, files := [], rows := [], nLog := [] }

/-- A mash collaborator always reporting distance 0 to reference cluster
`IncFII`. -/
def exOracleLow : Members → MashHit := fun _ => ⟨"AB123", 0, "IncFII"⟩

/-- A mash collaborator always reporting distance exactly 0.05. -/
def exOracleEq : Members → MashHit := fun _ => ⟨"AB123", mashThreshold, "IncFII"⟩

/-- A single-contig member set of total length 2000. -/
def exMembers1 : Members := [("c1", mkSeq 2000)]

/-! ## Membership bookkeeping across `seq_clusters` (the exclusivity
invariant) -/

/-- All contig ids appearing in any cluster's member map, cluster order
first. -/
def allMems (sc : SC) : List String := (sc.map fun e => keys e.2).join

/-! ### Splitter invariants -/

/-- Invariant carried through the splitter: the counter has not fallen below
its starting point, no `Novel_j` for a yet-unused `j` exists among the
refined cluster names, the membership lists are globally duplicate-free, and
logged counter values are in the past. -/
def DInv (k₀ : Nat) (st : SplitState) : Prop :=
  k₀ ≤ st.clustId ∧
  (∀ j, st.clustId ≤ j → ("Novel_" ++ toString j) ∉ keys st.refined) ∧
  (allMems st.refined).Nodup ∧
  ((∀ x ∈ st.kLog, x < st.clustId) ∧ st.kLog.Pairwise (· < ·))

/-! ### Circular Splitter claims -/

/-- `pcl_clusters` with contigs `A` and `B` both assigned to cluster `X`. -/
def pclExC3 : List (String × List (String × Int)) :=
  [("A", [("X", 100)]), ("B", [("X", 90)])]

/-- Contig `A` carries two replicon hits; `B` carries none. -/
def repliconExC3 : List (String × List String) :=
  [("A", ["r1|rep1", "r2|rep2"])]

def circularExC3 : List String := ["A", "B"]

def scExC3 : SC := [("X", [("A", "sA"), ("B", "sB")])]

/-! ### Synthesized-identifier suffix monotonicity -/

/-- The suffixes logged so far are all in the counter's past and strictly
increasing. -/
def LogInv (log : List Nat) (ctr : Nat) : Prop :=
  (∀ x ∈ log, x < ctr) ∧ log.Pairwise (· < ·)

/-- A mash collaborator always reporting distance 0.3 to reference `ZZZ`. -/
def exOracleHigh : Members → MashHit :=
  fun _ => ⟨"ref9", ⟨3, 10, by norm_num, by norm_num⟩, "ZZZ"⟩

/-- A run in which the marker loops synthesize `Novel_0` and the namer later
synthesizes `novel_0` and `novel_1`. -/
def exInpC6 : PipelineInput :=
  { hits := [{ qseqid := "c1", pID := "p1", clustId := "A", bitscore := 100,
               sstart := 1, send := 500, slen := 5000 }],
    minOverlap := 10,
    contigSeqs := [("c1", mkSeq 1500), ("m1", mkSeq 1500)],
    replicon := [],
    mob := [("m1", ["a|MOBF"])],
    repetitive := [],
    circular := ["c1"] }

/-- A one-contig assembly with no hits and no marker evidence. -/
def exInpC1 : PipelineInput :=
  { hits := [], minOverlap := 10, contigSeqs := [("c1", "AAAA")],
    replicon := [], mob := [], repetitive := [], circular := [] }

/-! ## Theorems -/

@[simp] theorem keys_nil {α : Type} : keys ([] : List (String × α)) = [] := rfl

@[simp] theorem keys_cons {α : Type} (e : String × α) (t : List (String × α)) :
    keys (e :: t) = e.1 :: keys t := rfl

theorem keys_append {α : Type} (l₁ l₂ : List (String × α)) :
    keys (l₁ ++ l₂) = keys l₁ ++ keys l₂ := by
  simp [keys]

theorem alistGet_set_self {α : Type} (l : List (String × α)) (k : String)
    (v : α) : alistGet (alistSet l k v) k = some v := by
  induction l with
  | nil => simp [alistSet, alistGet]
  | cons e t ih =>
    by_cases h : e.1 = k <;> simp [alistSet, alistGet, h, ih]

theorem alistGet_set_ne {α : Type} (l : List (String × α)) {k k' : String}
    (v : α) (h : k' ≠ k) : alistGet (alistSet l k v) k' = alistGet l k' := by
  have h' : k ≠ k' := Ne.symm h
  induction l with
  | nil => simp [alistSet, alistGet, h']
  | cons e t ih =>
    by_cases he : e.1 = k
    · subst he
      simp [alistSet, alistGet, h']
    · simp [alistSet, alistGet, he, ih]

theorem mem_keys_iff_isSome {α : Type} (l : List (String × α)) (k : String) :
    k ∈ keys l ↔ (alistGet l k).isSome := by
  induction l with
  | nil => simp [alistGet]
  | cons e t ih =>
    by_cases h : e.1 = k
    · simp [alistGet, h]
    · have h' : k ≠ e.1 := Ne.symm h
      simp only [keys_cons, List.mem_cons, alistGet, if_neg h]
      simp [h', ih]

theorem alistGet_eq_none_iff {α : Type} (l : List (String × α)) (k : String) :
    alistGet l k = none ↔ k ∉ keys l := by
  rw [mem_keys_iff_isSome]
  cases alistGet l k <;> simp

theorem keys_alistSet_mem {α : Type} :
    ∀ (l : List (String × α)) {k : String} (v : α), k ∈ keys l →
      keys (alistSet l k v) = keys l := by
  intro l
  induction l with
  | nil => intro k v h; simp at h
  | cons e t ih =>
    intro k v h
    by_cases he : e.1 = k
    · simp [alistSet, he]
    · have hk : k ∈ keys t := by
        rcases List.mem_cons.mp (by simpa using h) with h' | h'
        · exact absurd h'.symm he
        · exact h'
      simp [alistSet, he, ih v hk]

theorem keys_alistSet_not_mem {α : Type} :
    ∀ (l : List (String × α)) {k : String} (v : α), k ∉ keys l →
      keys (alistSet l k v) = keys l ++ [k] := by
  intro l
  induction l with
  | nil => intro k v _; simp [alistSet]
  | cons e t ih =>
    intro k v h
    have he : e.1 ≠ k := by
      intro hc; exact h (by simp [hc])
    have ht : k ∉ keys t := fun hc => h (by simp [hc])
    simp [alistSet, he, ih v ht]

theorem nodup_keys_alistSet {α : Type} (l : List (String × α)) (k : String)
    (v : α) (h : (keys l).Nodup) : (keys (alistSet l k v)).Nodup := by
  by_cases hk : k ∈ keys l
  · rwa [keys_alistSet_mem l v hk]
  · rw [keys_alistSet_not_mem l v hk]
    simpa [List.nodup_append] using ⟨h, hk⟩

theorem alistGet_mem {α : Type} :
    ∀ {l : List (String × α)} {k : String} {v : α},
      alistGet l k = some v → (k, v) ∈ l := by
  intro l
  induction l with
  | nil => intro k v h; simp [alistGet] at h
  | cons e t ih =>
    intro k v h
    by_cases he : e.1 = k
    · rw [alistGet, if_pos he] at h
      obtain ⟨e1, e2⟩ := e
      simp only at he
      subst he
      have hv : e2 = v := by simpa using h
      subst hv
      exact List.mem_cons_self _ _
    · rw [alistGet, if_neg he] at h
      exact List.mem_cons_of_mem _ (ih h)

theorem alistGet_of_mem_nodup {α : Type} :
    ∀ {l : List (String × α)} {k : String} {v : α},
      (keys l).Nodup → (k, v) ∈ l → alistGet l k = some v := by
  intro l
  induction l with
  | nil => intro k v _ h; simp at h
  | cons e t ih =>
    intro k v hnd h
    rcases List.mem_cons.mp h with he | ht
    · subst he; simp [alistGet]
    · have hk : k ∈ keys t := by
        have := List.mem_map_of_mem Prod.fst ht
        simpa [keys] using this
      have hnd' := List.nodup_cons.mp (by simpa using hnd)
      have he : e.1 ≠ k := by
        intro hc
        exact hnd'.1 (hc ▸ hk)
      rw [alistGet, if_neg he]
      exact ih hnd'.2 ht

theorem sweepAux_eq_append (t : Int) :
    ∀ (l kept : List Hit), ∃ s, s.Sublist l ∧ sweepAux t kept l = kept ++ s := by
  intro l
  induction l with
  | nil => intro kept; exact ⟨[], List.Sublist.refl _, by simp [sweepAux]⟩
  | cons r rest ih =>
    intro kept
    by_cases h : conflictsKept t kept r
    · obtain ⟨s, hs, he⟩ := ih kept
      exact ⟨s, hs.cons r, by simpa [sweepAux, h] using he⟩
    · obtain ⟨s, hs, he⟩ := ih (kept ++ [r])
      refine ⟨r :: s, hs.cons₂ r, ?_⟩
      simp [sweepAux, h, he]

theorem filter_overlaping_sublist (t : Int) (l : List Hit) :
    (filter_overlaping_records t l).Sublist (List.insertionSort hitLe l) := by
  obtain ⟨s, hs, he⟩ := sweepAux_eq_append t (List.insertionSort hitLe l) []
  rw [filter_overlaping_records, he]
  simpa using hs

theorem filter_overlaping_length_le (t : Int) (l : List Hit) :
    (filter_overlaping_records t l).length ≤ l.length := by
  have h := (filter_overlaping_sublist t l).length_le
  simpa [List.length_insertionSort] using h

theorem filter_overlaping_sorted (t : Int) (l : List Hit) :
    List.Sorted hitLe (filter_overlaping_records t l) :=
  List.Pairwise.sublist (filter_overlaping_sublist t l)
    (List.sorted_insertionSort hitLe l)

theorem filter_overlaping_eq_of_sorted_of_length (t : Int) {l : List Hit}
    (hs : List.Sorted hitLe l)
    (hlen : (filter_overlaping_records t l).length = l.length) :
    filter_overlaping_records t l = l := by
  have hsub := filter_overlaping_sublist t l
  rw [hs.insertionSort_eq] at hsub
  exact hsub.eq_of_length hlen

theorem resolveLoop_spec (t : Int) :
    ∀ fuel (l : List Hit), l.length < fuel → List.Sorted hitLe l →
      filter_overlaping_records t (resolveLoop t fuel l) =
        resolveLoop t fuel l ∧
      List.Sorted hitLe (resolveLoop t fuel l) := by
  intro fuel
  induction fuel with
  | zero => intro l hl _; exact absurd hl (Nat.not_lt_zero _)
  | succ n ih =>
    intro l hl hs
    rw [resolveLoop]
    split
    · rename_i h
      have heq := filter_overlaping_eq_of_sorted_of_length t hs h
      rw [heq]
      exact ⟨heq, hs⟩
    · rename_i h
      have hlt : (filter_overlaping_records t l).length < l.length :=
        lt_of_le_of_ne (filter_overlaping_length_le t l) h
      exact ih _ (lt_of_lt_of_le hlt (Nat.lt_succ_iff.mp hl))
        (filter_overlaping_sorted t l)

theorem resolveLoop_fixed (t : Int) (fuel : Nat) {l : List Hit}
    (h : filter_overlaping_records t l = l) :
    resolveLoop t (fuel + 1) l = l := by
  rw [resolveLoop]
  split
  · exact h
  · rename_i hne
    exact absurd (by rw [h]) hne

theorem resolveFix_fixed (t : Int) {l : List Hit}
    (h : filter_overlaping_records t l = l) : resolveFix t l = l := by
  rw [resolveFix, h]
  exact resolveLoop_fixed t l.length h

/-- C5: the Overlap Resolver (filter iterated to the fixed point) is
idempotent — applying it to its own output returns that output unchanged. -/
theorem overlap_resolver_idempotent (t : Int) (l : List Hit) :
    resolveFix t (resolveFix t l) = resolveFix t l := by
  obtain ⟨hfix, hsorted⟩ := resolveLoop_spec t
    ((filter_overlaping_records t l).length + 1) (filter_overlaping_records t l)
    (Nat.lt_succ_self _) (filter_overlaping_sorted t l)
  have hlen : (filter_overlaping_records t l).length + 1 ≤ l.length + 1 :=
    Nat.succ_le_succ (filter_overlaping_length_le t l)
  -- the loop reaches its fixed point with the fuel used by `resolveFix` too
  have hmono : resolveLoop t (l.length + 1) (filter_overlaping_records t l) =
      resolveLoop t ((filter_overlaping_records t l).length + 1)
        (filter_overlaping_records t l) := by
    clear hfix hsorted
    generalize hgen : filter_overlaping_records t l = m at hlen ⊢
    have : ∀ f₂ f₁ (m : List Hit), m.length < f₁ → f₁ ≤ f₂ →
        resolveLoop t f₂ m = resolveLoop t f₁ m := by
      intro f₂
      induction f₂ with
      | zero => intro f₁ m h1 h2; interval_cases f₁; rfl
      | succ n ihn =>
        intro f₁ m h1 h2
        match f₁, h1 with
        | f + 1, h1 =>
          rw [resolveLoop, resolveLoop]
          split
          · rfl
          · rename_i hne
            have hlt : (filter_overlaping_records t m).length < m.length :=
              lt_of_le_of_ne (filter_overlaping_length_le t m) hne
            exact ihn f _ (lt_of_lt_of_le hlt (Nat.lt_succ_iff.mp h1))
              (Nat.succ_le_succ_iff.mp h2)
    have hlt : m.length < m.length + 1 := Nat.lt_succ_self _
    exact this (l.length + 1) (m.length + 1) m hlt hlen
  have hOeq : resolveFix t l =
      resolveLoop t ((filter_overlaping_records t l).length + 1)
        (filter_overlaping_records t l) := by
    rw [resolveFix]; exact hmono
  have hfix' : filter_overlaping_records t (resolveFix t l) = resolveFix t l := by
    rw [hOeq]; exact hfix
  exact resolveFix_fixed t hfix'

/-- C2 counterexample: on `exHitsC2` no hit pair overlaps (all subjects
differ), cluster `A`'s summed bitscore (120) exceeds cluster `B`'s (100), yet
contig `c1` is claimed by `B` — the code ranks by the maximum member bitscore
(lines 215–218), not by the sum the claim states. -/
theorem cbg_ranking_not_by_sum :
    alistGet (contig_blast_group 10 exHitsC2) "c1" = some [("B", 100)] ∧
    resolveFix 10 exHitsC2 = exHitsC2 ∧
    clusterSumScore exHitsC2 "B" < clusterSumScore exHitsC2 "A" := by
  decide

/-! ### Invariants of the accumulation pass -/

theorem bumpScore_get_self (scores : List (String × Int)) (c : String)
    (v : Int) :
    ∃ w, alistGet (bumpScore scores c v) c = some w ∧ v ≤ w ∧
      (w = v ∨ alistGet scores c = some w) ∧
      ∀ cur, alistGet scores c = some cur → cur ≤ w := by
  unfold bumpScore
  cases hg : alistGet scores c with
  | none =>
    exact ⟨v, alistGet_set_self _ _ _, le_refl v, Or.inl rfl,
      fun cur hc => Option.noConfusion hc⟩
  | some cur =>
    by_cases hlt : cur < v
    · refine ⟨v, ?_, le_refl v, Or.inl rfl, ?_⟩
      · simp [hlt, alistGet_set_self]
      · intro cur' hc'
        injection hc' with he
        subst he
        exact le_of_lt hlt
    · refine ⟨cur, ?_, not_lt.mp hlt, Or.inr rfl, ?_⟩
      · simp [hlt, hg]
      · intro cur' hc'
        injection hc' with he
        subst he
        exact le_refl _

theorem bumpScore_get_ne (scores : List (String × Int)) {c : String} (v : Int)
    {c' : String} (h : c' ≠ c) :
    alistGet (bumpScore scores c v) c' = alistGet scores c' := by
  unfold bumpScore
  cases alistGet scores c with
  | none => exact alistGet_set_ne _ _ h
  | some cur =>
    by_cases hlt : cur < v
    · simp [hlt, alistGet_set_ne _ _ h]
    · simp [hlt]

theorem mem_keys_bumpScore (scores : List (String × Int)) (c : String)
    (v : Int) (c' : String) :
    c' ∈ keys (bumpScore scores c v) ↔ c' ∈ keys scores ∨ c' = c := by
  by_cases h : c' = c
  · subst h
    obtain ⟨w, hw, -, -, -⟩ := bumpScore_get_self scores c' v
    simp [mem_keys_iff_isSome, hw]
  · rw [mem_keys_iff_isSome, bumpScore_get_ne scores v h,
      ← mem_keys_iff_isSome]
    simp [h]

theorem nodup_keys_bumpScore (scores : List (String × Int)) (c : String)
    (v : Int) (h : (keys scores).Nodup) :
    (keys (bumpScore scores c v)).Nodup := by
  unfold bumpScore
  cases alistGet scores c with
  | none => exact nodup_keys_alistSet _ _ _ h
  | some cur =>
    by_cases hlt : cur < v
    · simpa [hlt] using nodup_keys_alistSet scores c v h
    · simpa [hlt] using h

theorem mem_keys_bumpInner (inner : List (String × Int)) (c : String)
    (v : Int) (c' : String) :
    c' ∈ keys (bumpInner inner c v) ↔ c' ∈ keys inner ∨ c' = c := by
  unfold bumpInner
  by_cases h : c' = c
  · subst h
    cases hg : alistGet inner c' with
    | none =>
      have h0 := alistGet_set_self inner c' (0 : Int)
      simp only [hg, h0]
      by_cases hlt : (0 : Int) < v
      · simp [hlt, mem_keys_iff_isSome, alistGet_set_self]
      · simp [hlt, mem_keys_iff_isSome, h0]
    | some cur =>
      simp only [hg]
      by_cases hlt : cur < v
      · simp [hlt, mem_keys_iff_isSome, alistGet_set_self, hg]
      · simp [hlt, mem_keys_iff_isSome, hg]
  · have hne : c' ≠ c := h
    cases hg : alistGet inner c with
    | none =>
      have h0 := alistGet_set_self inner c (0 : Int)
      simp only [hg, h0]
      by_cases hlt : (0 : Int) < v
      · simp [hlt, mem_keys_iff_isSome, alistGet_set_ne _ _ hne,
          alistGet_set_ne (alistSet inner c 0) _ hne, h]
      · simp [hlt, mem_keys_iff_isSome, alistGet_set_ne _ _ hne, h]
    | some cur =>
      simp only [hg]
      by_cases hlt : cur < v
      · simp [hlt, mem_keys_iff_isSome, alistGet_set_ne _ _ hne, h]
      · simp [hlt, mem_keys_iff_isSome, h]

theorem cbgInv_step {R : List Hit} {st : CbgState} (h : CbgInv R st)
    (r : Hit) : CbgInv (R ++ [r]) (cbgStep st r) := by
  obtain ⟨hnd1, hnd2, hkeys, hcont, hclust, hmax⟩ := h
  obtain ⟨w, hwget, hvw, hwsrc, hwmax⟩ :=
    bumpScore_get_self st.clusterScores r.clustId r.bitscore
  refine ⟨nodup_keys_bumpScore _ _ _ hnd1, nodup_keys_alistSet _ _ _ hnd2,
    ?_, ?_, ?_, ?_⟩
  · -- contig → cluster keys
    show ∀ cid inner, alistGet (alistSet st.contigs r.qseqid
        (bumpInner ((alistGet st.contigs r.qseqid).getD []) r.clustId
          r.bitscore)) cid = some inner →
      ∀ c, c ∈ keys inner ↔ ∃ r' ∈ R ++ [r], r'.qseqid = cid ∧ r'.clustId = c
    intro cid inner hget c
    by_cases hc : cid = r.qseqid
    · subst hc
      rw [alistGet_set_self] at hget
      cases hget
      rw [mem_keys_bumpInner]
      cases hg0 : alistGet st.contigs r.qseqid with
      | none =>
        have hnone : ∀ r' ∈ R, r'.qseqid ≠ r.qseqid := by
          intro r' hr' hq
          have := (hcont r.qseqid).mp ⟨r', hr', hq⟩
          rw [hg0] at this
          cases this
        constructor
        · rintro (hmem | hmem)
          · simp at hmem
          · exact ⟨r, by simp, rfl, hmem.symm⟩
        · rintro ⟨r', hr', hq, hcl⟩
          rcases List.mem_append.mp hr' with hR | hsing
          · exact absurd hq (hnone r' hR)
          · right
            rw [List.mem_singleton.mp hsing] at hcl
            exact hcl.symm
      | some inner₀ =>
        simp only [Option.getD_some]
        rw [hkeys r.qseqid inner₀ hg0 c]
        constructor
        · rintro (⟨r', hr', hq, hcl⟩ | hc)
          · exact ⟨r', List.mem_append_left _ hr', hq, hcl⟩
          · exact ⟨r, by simp, rfl, hc.symm⟩
        · rintro ⟨r', hr', hq, hcl⟩
          rcases List.mem_append.mp hr' with hR | hsing
          · exact Or.inl ⟨r', hR, hq, hcl⟩
          · right
            rw [List.mem_singleton.mp hsing] at hcl hq
            exact hcl.symm
    · rw [alistGet_set_ne _ _ hc] at hget
      rw [hkeys cid inner hget c]
      constructor
      · rintro ⟨r', hr', hq, hcl⟩
        exact ⟨r', List.mem_append_left _ hr', hq, hcl⟩
      · rintro ⟨r', hr', hq, hcl⟩
        rcases List.mem_append.mp hr' with hR | hsing
        · exact ⟨r', hR, hq, hcl⟩
        · rw [List.mem_singleton.mp hsing] at hq
          exact absurd hq.symm hc
  · -- contig presence
    show ∀ cid, (∃ r' ∈ R ++ [r], r'.qseqid = cid) ↔
      (alistGet (alistSet st.contigs r.qseqid
        (bumpInner ((alistGet st.contigs r.qseqid).getD []) r.clustId
          r.bitscore)) cid).isSome
    intro cid
    by_cases hc : cid = r.qseqid
    · subst hc
      rw [alistGet_set_self]
      simp only [Option.isSome_some, iff_true]
      exact ⟨r, by simp, rfl⟩
    · rw [alistGet_set_ne _ _ hc, ← hcont cid]
      constructor
      · rintro ⟨r', hr', hq⟩
        rcases List.mem_append.mp hr' with hR | hsing
        · exact ⟨r', hR, hq⟩
        · rw [List.mem_singleton.mp hsing] at hq
          exact absurd hq.symm hc
      · rintro ⟨r', hr', hq⟩
        exact ⟨r', List.mem_append_left _ hr', hq⟩
  · -- cluster presence
    show ∀ c, (∃ r' ∈ R ++ [r], r'.clustId = c) ↔
      (alistGet (bumpScore st.clusterScores r.clustId r.bitscore) c).isSome
    intro c
    by_cases hc : c = r.clustId
    · subst hc
      rw [hwget]
      simp only [Option.isSome_some, iff_true]
      exact ⟨r, by simp, rfl⟩
    · rw [bumpScore_get_ne _ _ hc, ← hclust c]
      constructor
      · rintro ⟨r', hr', hq⟩
        rcases List.mem_append.mp hr' with hR | hsing
        · exact ⟨r', hR, hq⟩
        · rw [List.mem_singleton.mp hsing] at hq
          exact absurd hq.symm hc
      · rintro ⟨r', hr', hq⟩
        exact ⟨r', List.mem_append_left _ hr', hq⟩
  · -- cluster max characterization
    show ∀ c v, alistGet (bumpScore st.clusterScores r.clustId r.bitscore) c =
        some v →
      (∃ r' ∈ R ++ [r], r'.clustId = c ∧ r'.bitscore = v) ∧
      ∀ r' ∈ R ++ [r], r'.clustId = c → r'.bitscore ≤ v
    intro c v hget
    by_cases hc : c = r.clustId
    · subst hc
      rw [hwget] at hget
      cases hget
      constructor
      · rcases hwsrc with hv | hold
        · exact ⟨r, by simp, rfl, hv.symm⟩
        · obtain ⟨⟨r', hr', hcl, hb⟩, -⟩ := hmax r.clustId w hold
          exact ⟨r', List.mem_append_left _ hr', hcl, hb⟩
      · intro r' hr' hcl
        rcases List.mem_append.mp hr' with hR | hsing
        · cases hg0 : alistGet st.clusterScores r.clustId with
          | none =>
            have := (hclust r.clustId).mp ⟨r', hR, hcl⟩
            rw [hg0] at this
            cases this
          | some cur =>
            exact le_trans ((hmax r.clustId cur hg0).2 r' hR hcl)
              (hwmax cur hg0)
        · rw [List.mem_singleton.mp hsing]
          exact hvw
    · rw [bumpScore_get_ne _ _ hc] at hget
      obtain ⟨⟨r', hr', hcl, hb⟩, hbound⟩ := hmax c v hget
      refine ⟨⟨r', List.mem_append_left _ hr', hcl, hb⟩, ?_⟩
      intro r₂ hr₂ hcl₂
      rcases List.mem_append.mp hr₂ with hR | hsing
      · exact hbound r₂ hR hcl₂
      · rw [List.mem_singleton.mp hsing] at hcl₂
        exact absurd hcl₂.symm hc

theorem cbgInv_foldl :
    ∀ (rows R : List Hit) (st : CbgState), CbgInv R st →
      CbgInv (R ++ rows) (rows.foldl cbgStep st) := by
  intro rows
  induction rows with
  | nil => intro R st h; simpa using h
  | cons r rest ih =>
    intro R st h
    have h' := ih (R ++ [r]) (cbgStep st r) (cbgInv_step h r)
    simpa using h'

theorem cbgInv_cbgBuild (rows : List Hit) : CbgInv rows (cbgBuild rows) := by
  have hempty : CbgInv [] { clusterScores := [], contigs := [] } := by
    refine ⟨List.nodup_nil, List.nodup_nil, ?_, ?_, ?_, ?_⟩
    · intro cid inner hget; cases hget
    · intro cid; simp [alistGet]
    · intro c; simp [alistGet]
    · intro c v hget; cases hget
  simpa using cbgInv_foldl rows [] _ hempty

theorem alistGet_claimStep (contigs : List (String × List (String × Int)))
    (c : String) (cid : String) :
    alistGet (cbgClaimStep contigs c) cid =
      (alistGet contigs cid).map (claimInner c) := by
  induction contigs with
  | nil => simp [cbgClaimStep, alistGet]
  | cons e t ih =>
    by_cases h : e.1 = cid
    · simp [cbgClaimStep, alistGet, h]
    · simp only [cbgClaimStep, List.map_cons] at ih ⊢
      rw [alistGet, if_neg h, alistGet, if_neg h]
      exact ih

theorem alistGet_claim_foldl (cs : List (String × Int)) :
    ∀ (contigs : List (String × List (String × Int))) (cid : String),
      alistGet (cs.foldl (fun contigs e => cbgClaimStep contigs e.1) contigs)
          cid =
        (alistGet contigs cid).map (assignFold (cs.map Prod.fst)) := by
  induction cs with
  | nil =>
    intro contigs cid
    rw [List.foldl_nil]
    cases h : alistGet contigs cid <;> simp [assignFold]
  | cons e rest ih =>
    intro contigs cid
    rw [List.foldl_cons, ih (cbgClaimStep contigs e.1) cid,
      alistGet_claimStep]
    cases h : alistGet contigs cid <;> simp [assignFold]

theorem assignFold_singleton (cs : List String) (c : String) (s : Int) :
    assignFold cs [(c, s)] = [(c, s)] := by
  induction cs with
  | nil => rfl
  | cons c' rest ih =>
    rw [assignFold, List.foldl_cons]
    by_cases h : c = c'
    · subst h
      simpa [claimInner, alistGet] using ih
    · simpa [claimInner, alistGet, h] using ih

theorem firstHitCluster_isSome :
    ∀ (cs : List (String × Int)) (ks : List String),
      (∃ p ∈ cs, p.1 ∈ ks) → (firstHitCluster cs ks).isSome := by
  intro cs
  induction cs with
  | nil => rintro ks ⟨p, hp, -⟩; simp at hp
  | cons e rest ih =>
    rintro ks ⟨p, hp, hpk⟩
    obtain ⟨c, v⟩ := e
    by_cases h : c ∈ ks
    · simp [firstHitCluster, h]
    · rcases List.mem_cons.mp hp with he | ht
      · rw [he] at hpk
        exact absurd hpk h
      · simpa [firstHitCluster, h] using ih ks ⟨p, ht, hpk⟩

theorem firstHitCluster_mem :
    ∀ (cs : List (String × Int)) (ks : List String) {c : String} {v : Int},
      firstHitCluster cs ks = some (c, v) → (c, v) ∈ cs ∧ c ∈ ks := by
  intro cs
  induction cs with
  | nil => intro ks c v h; cases h
  | cons e rest ih =>
    intro ks c v h
    obtain ⟨c₀, v₀⟩ := e
    by_cases h₀ : c₀ ∈ ks
    · rw [firstHitCluster, if_pos h₀] at h
      injection h with he
      rw [Prod.mk.injEq] at he
      obtain ⟨h1, h2⟩ := he
      subst h1
      subst h2
      exact ⟨List.mem_cons_self _ _, h₀⟩
    · rw [firstHitCluster, if_neg h₀] at h
      obtain ⟨hmem, hks⟩ := ih ks h
      exact ⟨List.mem_cons_of_mem _ hmem, hks⟩

theorem firstHitCluster_assignFold :
    ∀ (cs : List (String × Int)) (inner : List (String × Int)) {c : String}
      {v : Int}, firstHitCluster cs (keys inner) = some (c, v) →
      ∃ s, alistGet inner c = some s ∧
        assignFold (cs.map Prod.fst) inner = [(c, s)] := by
  intro cs
  induction cs with
  | nil => intro inner c v h; cases h
  | cons e rest ih =>
    intro inner c v h
    obtain ⟨c₀, v₀⟩ := e
    by_cases h₀ : c₀ ∈ keys inner
    · rw [firstHitCluster, if_pos h₀] at h
      injection h with he
      rw [Prod.mk.injEq] at he
      obtain ⟨h1, h2⟩ := he
      subst h1
      obtain ⟨s, hs⟩ := Option.isSome_iff_exists.mp
        ((mem_keys_iff_isSome inner c₀).mp h₀)
      refine ⟨s, hs, ?_⟩
      rw [List.map_cons, assignFold, List.foldl_cons]
      have hclaim : claimInner c₀ inner = [(c₀, s)] := by
        rw [claimInner, hs]
      rw [hclaim]
      exact assignFold_singleton _ _ _
    · rw [firstHitCluster, if_neg h₀] at h
      obtain ⟨s, hs, hfold⟩ := ih inner h
      refine ⟨s, hs, ?_⟩
      rw [List.map_cons, assignFold, List.foldl_cons]
      have : claimInner c₀ inner = inner := by
        rw [claimInner,
          (alistGet_eq_none_iff inner c₀).mpr h₀]
      rw [this]
      exact hfold

theorem firstHitCluster_max :
    ∀ (cs : List (String × Int)) (ks : List String) {c : String} {v : Int},
      List.Sorted descVal cs → firstHitCluster cs ks = some (c, v) →
      ∀ p ∈ cs, p.1 ∈ ks → p.2 ≤ v := by
  intro cs
  induction cs with
  | nil => intro ks c v _ h; cases h
  | cons e rest ih =>
    intro ks c v hsort h p hp hpk
    obtain ⟨c₀, v₀⟩ := e
    have hsort' := List.sorted_cons.mp hsort
    by_cases h₀ : c₀ ∈ ks
    · rw [firstHitCluster, if_pos h₀] at h
      injection h with he
      obtain ⟨h1, h2⟩ := Prod.ext_iff.mp he
      simp only at h1 h2
      subst h2
      rcases List.mem_cons.mp hp with hphead | hptail
      · rw [hphead]
      · exact hsort'.1 p hptail
    · rw [firstHitCluster, if_neg h₀] at h
      rcases List.mem_cons.mp hp with hphead | hptail
      · rw [hphead] at hpk
        exact absurd hpk h₀
      · exact ih ks hsort'.2 h p hptail hpk

/-- C2 (amended): clusters are ranked by the **maximum** bitscore among their
member hits (descending); a contig with resolved hits to several reference
clusters is claimed by the hit cluster whose maximum member-hit bitscore is
highest.  Concretely: each entry of the returned map is a singleton whose
cluster has a resolved hit on the contig, and the best bitscore `v` of that
cluster (attained by one of its resolved hits) dominates every resolved hit
of every cluster that hits the contig. -/
theorem cbg_claims_by_max_bitscore (t : Int) (rows : List Hit) (cid : String)
    (inner : List (String × Int))
    (h : alistGet (contig_blast_group t rows) cid = some inner) :
    ∃ c s, inner = [(c, s)] ∧
      (∃ r ∈ resolveFix t rows, r.qseqid = cid ∧ r.clustId = c) ∧
      ∃ v, (∃ r ∈ resolveFix t rows, r.clustId = c ∧ r.bitscore = v) ∧
        ∀ r ∈ resolveFix t rows, r.qseqid = cid →
          ∀ r₂ ∈ resolveFix t rows, r₂.clustId = r.clustId →
            r₂.bitscore ≤ v := by
  obtain ⟨hnd1, hnd2, hkeys, hcont, hclust, hmax⟩ :=
    cbgInv_cbgBuild (resolveFix t rows)
  rw [contig_blast_group, alistGet_claim_foldl] at h
  obtain ⟨inner₀, hget₀, hinner⟩ :
      ∃ inner₀, alistGet (cbgBuild (resolveFix t rows)).contigs cid =
          some inner₀ ∧
        inner = assignFold ((sortedClustersDesc
          (cbgBuild (resolveFix t rows)).clusterScores).map Prod.fst)
          inner₀ := by
    cases hg : alistGet (cbgBuild (resolveFix t rows)).contigs cid with
    | none => rw [hg] at h; cases h
    | some inner₀ =>
      rw [hg] at h
      injection h with he
      exact ⟨inner₀, rfl, he.symm⟩
  -- the contig has at least one resolved hit, whose cluster is ranked
  obtain ⟨r₀, hr₀, hq₀⟩ := (hcont cid).mpr (by rw [hget₀]; rfl)
  have hc₀ : r₀.clustId ∈ keys inner₀ :=
    (hkeys cid inner₀ hget₀ r₀.clustId).mpr ⟨r₀, hr₀, hq₀, rfl⟩
  have hperm : (sortedClustersDesc
      (cbgBuild (resolveFix t rows)).clusterScores).Perm
      (cbgBuild (resolveFix t rows)).clusterScores :=
    List.perm_insertionSort descVal _
  have hsorted : List.Sorted descVal (sortedClustersDesc
      (cbgBuild (resolveFix t rows)).clusterScores) :=
    List.sorted_insertionSort descVal _
  obtain ⟨v₀, hv₀⟩ := Option.isSome_iff_exists.mp
    ((hclust r₀.clustId).mp ⟨r₀, hr₀, rfl⟩)
  have hp₀ : ((r₀.clustId, v₀) ∈ sortedClustersDesc
      (cbgBuild (resolveFix t rows)).clusterScores) :=
    hperm.mem_iff.mpr (alistGet_mem hv₀)
  obtain ⟨⟨c, v⟩, hfirst⟩ := Option.isSome_iff_exists.mp
    (firstHitCluster_isSome _ (keys inner₀) ⟨(r₀.clustId, v₀), hp₀, hc₀⟩)
  obtain ⟨hcv_mem, hc_keys⟩ := firstHitCluster_mem _ _ hfirst
  obtain ⟨s, hs, hfold⟩ := firstHitCluster_assignFold _ inner₀ hfirst
  refine ⟨c, s, by rw [hinner, hfold], ?_, v, ?_, ?_⟩
  · exact (hkeys cid inner₀ hget₀ c).mp hc_keys
  · have hvget : alistGet (cbgBuild (resolveFix t rows)).clusterScores c =
        some v :=
      alistGet_of_mem_nodup hnd1 (hperm.mem_iff.mp hcv_mem)
    exact (hmax c v hvget).1
  · intro r hr hq r₂ hr₂ hcl₂
    have hck : r.clustId ∈ keys inner₀ :=
      (hkeys cid inner₀ hget₀ r.clustId).mpr ⟨r, hr, hq, rfl⟩
    obtain ⟨v', hv'⟩ := Option.isSome_iff_exists.mp
      ((hclust r.clustId).mp ⟨r, hr, rfl⟩)
    have hpmem : ((r.clustId, v') ∈ sortedClustersDesc
        (cbgBuild (resolveFix t rows)).clusterScores) :=
      hperm.mem_iff.mpr (alistGet_mem hv')
    have hle : v' ≤ v := firstHitCluster_max _ _ hsorted hfirst _ hpmem hck
    exact le_trans ((hmax r.clustId v' hv').2 r₂ hr₂ hcl₂) hle

/-- Witness for the amended C2 theorem at the concrete table `exHitsC2`. -/
theorem cbg_claims_by_max_bitscore_witness :
    ∃ c s, ([(("B" : String), (100 : Int))] = [(c, s)]) ∧
      (∃ r ∈ resolveFix 10 exHitsC2, r.qseqid = "c1" ∧ r.clustId = c) ∧
      ∃ v, (∃ r ∈ resolveFix 10 exHitsC2, r.clustId = c ∧ r.bitscore = v) ∧
        ∀ r ∈ resolveFix 10 exHitsC2, r.qseqid = "c1" →
          ∀ r₂ ∈ resolveFix 10 exHitsC2, r₂.clustId = r.clustId →
            r₂.bitscore ≤ v :=
  cbg_claims_by_max_bitscore 10 exHitsC2 "c1" [("B", 100)] (by decide)

theorem digitVal_digitChar {d : Nat} (h : d < 10) :
    digitVal (Nat.digitChar d) = d := by
  interval_cases d <;> decide

theorem toDigitsCore_eq_decDigits :
    ∀ (fuel n : Nat) (ds : List Char), n < fuel →
      Nat.toDigitsCore 10 fuel n ds = decDigits n ++ ds := by
  intro fuel
  induction fuel with
  | zero => intro n ds h; exact absurd h (Nat.not_lt_zero _)
  | succ f ih =>
    intro n ds h
    rw [Nat.toDigitsCore]
    by_cases h0 : n / 10 = 0
    · have hn : n < 10 := by omega
      rw [if_pos h0, decDigits, if_pos hn, Nat.mod_eq_of_lt hn]
      simp
    · have hn : ¬ n < 10 := by omega
      have hfuel : n / 10 < f := by
        have h1 : n / 10 < n := Nat.div_lt_self (by omega) (by omega)
        omega
      rw [if_neg h0, ih (n / 10) _ hfuel]
      conv_rhs => rw [decDigits]
      rw [if_neg hn]
      simp

theorem digitsVal_append_last (xs : List Char) (c : Char) :
    digitsVal (xs ++ [c]) = 10 * digitsVal xs + digitVal c := by
  rw [digitsVal, List.foldl_append]
  rfl

theorem digitsVal_decDigits : ∀ n, digitsVal (decDigits n) = n := by
  intro n
  induction n using Nat.strong_induction_on with
  | _ n ih =>
    by_cases h : n < 10
    · rw [decDigits, if_pos h]
      have : digitsVal [Nat.digitChar n] = digitVal (Nat.digitChar n) := by
        simp [digitsVal]
      rw [this, digitVal_digitChar h]
    · rw [decDigits, if_neg h, digitsVal_append_last,
        ih (n / 10) (Nat.div_lt_self (by omega) (by omega)),
        digitVal_digitChar (Nat.mod_lt n (by omega))]
      exact Nat.div_add_mod n 10

theorem decDigits_inj {a b : Nat} (h : decDigits a = decDigits b) : a = b := by
  rw [← digitsVal_decDigits a, ← digitsVal_decDigits b, h]

theorem natRepr_inj {a b : Nat} (h : Nat.repr a = Nat.repr b) : a = b := by
  have hdata : Nat.toDigits 10 a = Nat.toDigits 10 b := by
    have hd := congrArg String.data h
    simpa [Nat.repr, List.asString] using hd
  rw [Nat.toDigits, Nat.toDigits,
    toDigitsCore_eq_decDigits (a + 1) a [] (Nat.lt_succ_self a),
    toDigitsCore_eq_decDigits (b + 1) b [] (Nat.lt_succ_self b)] at hdata
  exact decDigits_inj (by simpa using hdata)

theorem natToString_inj {a b : Nat} (h : toString a = toString b) : a = b :=
  natRepr_inj h

theorem string_append_inj {s a b : String} (h : s ++ a = s ++ b) : a = b := by
  have hd := congrArg String.data h
  simp only [String.data_append] at hd
  have hab := List.append_cancel_left hd
  cases a
  cases b
  exact congrArg String.mk hab

theorem novelName_inj {p : String} {a b : Nat}
    (h : p ++ toString a = p ++ toString b) : a = b :=
  natToString_inj (string_append_inj h)

theorem ne_append_of_length_lt {s t u : String}
    (h : u.length < s.length) : u ≠ s ++ t := by
  intro hc
  rw [hc, String.length_append] at h
  omega

theorem mkSeq_length (n : Nat) : (mkSeq n).length = n := by
  rw [mkSeq, String.length_mk]
  exact List.length_replicate n 'A'

/-- C9: a cluster that reaches the Composite Classifier with zero members is
discarded without dividing by zero — the all-repetitive check (0 = 0)
short-circuits the repetitive-fraction division — and contributes nothing to
the report. -/
theorem empty_cluster_discarded (repetitive : List (String × String))
    (replicon mob : List (String × List String)) (circular : List String)
    (oracle : Members → MashHit) (st : EmitState) (cid : String) :
    clusterDiscard repetitive [] = some true ∧
    processCluster repetitive replicon mob circular oracle st (cid, []) =
      st := by
  have h : clusterDiscard repetitive [] = some true := by
    simp [clusterDiscard]
  exact ⟨h, by simp [processCluster, h]⟩

/-- C4: a cluster is discarded by the Composite Classifier iff all members
are repetitive, or the repetitive fraction exceeds 50% with every member
shorter than 3000 bases, or the total length is under 1500 bases; a 2-contig
cluster of lengths 500/800 is discarded whatever the repetitive evidence,
while a 3-contig cluster of lengths 4000/5000/6000 with 2 of 3 repetitive is
retained. -/
theorem classifier_discard_characterization :
    (∀ (repetitive : List (String × String)) (members : Members),
      members ≠ [] →
      (clusterDiscard repetitive members = some true ↔
        ((members.filter fun m => m.1 ∈ keys repetitive).length =
            members.length ∨
         ((members.filter fun m => m.1 ∈ keys repetitive).length * 100 >
             50 * members.length ∧
          (members.filter fun m => m.2.length < 3000).length =
            members.length) ∨
         (members.map fun m => m.2.length).sum < 1500))) ∧
    (∀ repetitive, clusterDiscard repetitive
        [("c1", mkSeq 500), ("c2", mkSeq 800)] = some true) ∧
    clusterDiscard [("c1", ""), ("c2", "")]
      [("c1", mkSeq 4000), ("c2", mkSeq 5000), ("c3", mkSeq 6000)] =
      some false := by
  refine ⟨?_, ?_, ?_⟩
  · intro repetitive members hne
    simp only [clusterDiscard]
    split_ifs with h1 h0 h2 h3
    · simp [h1]
    · exact absurd (List.length_eq_zero.mp h0) hne
    · simp [h2]
    · simp [h3]
    · apply iff_of_false
      · simp
      · push_neg
        exact ⟨h1, fun ha hc => h2 ⟨ha, hc⟩, not_lt.mp h3⟩
  · intro repetitive
    simp only [clusterDiscard]
    split_ifs with h1 h0 h2 h3
    · rfl
    · exact absurd h0 (by simp)
    · rfl
    · rfl
    · exfalso
      apply h3
      simp [mkSeq_length]
  · simp [clusterDiscard, mkSeq_length, keys]

/-- Witness for the classifier characterization at a concrete nonempty
cluster. -/
theorem classifier_discard_characterization_witness :
    clusterDiscard [] [("c1", "x")] = some true ↔
      (([("c1", "x")].filter fun m =>
          m.1 ∈ keys ([] : List (String × String))).length =
        [("c1", "x")].length ∨
       (([("c1", "x")].filter fun m =>
           m.1 ∈ keys ([] : List (String × String))).length * 100 >
           50 * [("c1", "x")].length ∧
        ([("c1", "x")].filter fun m => m.2.length < 3000).length =
          [("c1", "x")].length) ∨
       ([("c1", "x")].map fun m => m.2.length).sum < 1500) :=
  classifier_discard_characterization.1 [] [("c1", "x")]
    (List.cons_ne_nil _ _)

/-! ## Nearest-Neighbor Namer claims -/

theorem addAll_eq_append :
    ∀ (members : Members) (fl : List String),
      (∀ m ∈ members, m.1 ∉ fl) → (members.map Prod.fst).Nodup →
      members.foldl (fun fl m => flAdd fl m.1) fl = fl ++ members.map Prod.fst := by
  intro members
  induction members with
  | nil => intro fl _ _; simp
  | cons m rest ih =>
    intro fl hdisj hnd
    rw [List.foldl_cons]
    have hm : m.1 ∉ fl := hdisj m (List.mem_cons_self _ _)
    have hstep : flAdd fl m.1 = fl ++ [m.1] := by rw [flAdd, if_neg hm]
    rw [hstep, ih (fl ++ [m.1]) ?_ (List.nodup_cons.mp (by simpa using hnd)).2]
    · simp
    · intro m' hm'
      have h1 : m'.1 ∉ fl := hdisj m' (List.mem_cons_of_mem _ hm')
      have h2 : m'.1 ≠ m.1 := by
        intro hc
        exact (List.nodup_cons.mp (by simpa using hnd)).1
          (hc ▸ List.mem_map_of_mem Prod.fst hm')
      simp [h1, h2]

theorem eraseAll_append :
    ∀ (members : Members) (fl : List String),
      (∀ m ∈ members, m.1 ∉ fl) → (members.map Prod.fst).Nodup →
      members.foldl (fun fl m => fl.erase m.1) (fl ++ members.map Prod.fst) =
        fl := by
  intro members
  induction members with
  | nil => intro fl _ _; simp
  | cons m rest ih =>
    intro fl hdisj hnd
    rw [List.foldl_cons]
    have hm : m.1 ∉ fl := hdisj m (List.mem_cons_self _ _)
    have hstep : (fl ++ List.map Prod.fst (m :: rest)).erase m.1 =
        fl ++ rest.map Prod.fst := by
      rw [List.map_cons, List.erase_append_right _ hm, List.erase_cons_head]
    rw [hstep]
    refine ih fl ?_ (List.nodup_cons.mp (by simpa using hnd)).2
    intro m' hm'
    exact hdisj m' (List.mem_cons_of_mem _ hm')

/-- C7: for a cluster surviving the classifier — if the best mash score is
below 0.05 the cluster adopts the nearest reference's cluster identity and
its sequences are merged into an existing plasmid group of that identity when
one exists (with the nearest neighbor re-queried after the merge, on the
cluster's own member set); if the score is not below 0.05 (and, when strictly
above, some member carries replicon/relaxase/circularity evidence) it gets a
fresh `novel_counter` identity; if the score exceeds 0.05 and no member has
marker evidence, the cluster contributes no report rows and its contigs are
released back (to be reported as chromosome). -/
theorem namer_threshold_behavior (repetitive : List (String × String))
    (replicon mob : List (String × List String)) (circular : List String)
    (oracle : Members → MashHit) (st : EmitState) (cid : String)
    (members : Members)
    (hret : clusterDiscard repetitive members ≠ some true) :
    ((oracle members).mash_hit_score < mashThreshold →
      ((processCluster repetitive replicon mob circular oracle st
          (cid, members)).rows =
        st.rows ++ members.map (fun m =>
          { cluster := (oracle members).clustid, contig := m.1,
            contigLen := m.2.length, circStatus := m.1 ∈ circular,
            mashTop := (oracle members).top_hit,
            mashScore := some (oracle members).mash_hit_score }) ∧
       (processCluster repetitive replicon mob circular oracle st
          (cid, members)).counter = st.counter ∧
       (("plasmid_" ++ (oracle members).clustid ++ ".fasta") ∈ keys st.files →
         (processCluster repetitive replicon mob circular oracle st
            (cid, members)).files =
           alistSet st.files
             ("plasmid_" ++ (oracle members).clustid ++ ".fasta")
             ((alistGet st.files
                ("plasmid_" ++ (oracle members).clustid ++ ".fasta")).getD []
               ++ members)) ∧
       (("plasmid_" ++ (oracle members).clustid ++ ".fasta") ∉ keys st.files →
         (processCluster repetitive replicon mob circular oracle st
            (cid, members)).files =
           st.files ++
             [("plasmid_" ++ (oracle members).clustid ++ ".fasta",
               members)]))) ∧
    (¬ (oracle members).mash_hit_score < mashThreshold →
      (mashThreshold < (oracle members).mash_hit_score →
        hasMarkerEvidence replicon mob circular members = true) →
      ((processCluster repetitive replicon mob circular oracle st
          (cid, members)).rows =
        st.rows ++ members.map (fun m =>
          { cluster := "novel_" ++ toString st.counter, contig := m.1,
            contigLen := m.2.length, circStatus := m.1 ∈ circular,
            mashTop := (oracle members).top_hit,
            mashScore := some (oracle members).mash_hit_score }) ∧
       (processCluster repetitive replicon mob circular oracle st
          (cid, members)).counter = st.counter + 1)) ∧
    (mashThreshold < (oracle members).mash_hit_score →
      hasMarkerEvidence replicon mob circular members = false →
      (members.map Prod.fst).Nodup →
      (∀ m ∈ members, m.1 ∉ st.filterList) →
      ((processCluster repetitive replicon mob circular oracle st
          (cid, members)).rows = st.rows ∧
       (processCluster repetitive replicon mob circular oracle st
          (cid, members)).filterList = st.filterList)) := by
  refine ⟨?_, ?_, ?_⟩
  · intro hlt
    have hnodrop : ¬ (mashThreshold < (oracle members).mash_hit_score ∧
        ¬ hasMarkerEvidence replicon mob circular members) := by
      rintro ⟨hgt, -⟩
      exact absurd hlt (lt_asymm hgt)
    refine ⟨?_, ?_, ?_, ?_⟩
    · simp only [processCluster, if_neg hret, if_neg hnodrop, if_pos hlt]
      by_cases hfile : ("plasmid_" ++ (oracle members).clustid ++ ".fasta")
          ∈ keys st.files <;> simp [hfile]
    · simp only [processCluster, if_neg hret, if_neg hnodrop, if_pos hlt]
    · intro hfile
      simp only [processCluster, if_neg hret, if_neg hnodrop, if_pos hlt]
      simp [hfile]
    · intro hfile
      simp only [processCluster, if_neg hret, if_neg hnodrop, if_pos hlt]
      simp [hfile]
  · intro hge hev
    have hnodrop : ¬ (mashThreshold < (oracle members).mash_hit_score ∧
        ¬ hasMarkerEvidence replicon mob circular members) := by
      rintro ⟨hgt, hnoev⟩
      exact hnoev (by simp [hev hgt])
    constructor <;>
      simp only [processCluster, if_neg hret, if_neg hnodrop, if_neg hge] <;>
      by_cases hfile : ("plasmid_" ++ ("novel_" ++ toString st.counter) ++
          ".fasta") ∈ keys st.files <;>
      simp [hfile]
  · intro hgt hnoev hnd hdisj
    have hdrop : mashThreshold < (oracle members).mash_hit_score ∧
        ¬ hasMarkerEvidence replicon mob circular members := by
      exact ⟨hgt, by simp [hnoev]⟩
    constructor
    · simp only [processCluster, if_neg hret, if_pos hdrop]
    · simp only [processCluster, if_neg hret, if_pos hdrop]
      show members.foldl (fun fl m => fl.erase m.1)
        (members.foldl (fun fl m => flAdd fl m.1) st.filterList) =
          st.filterList
      rw [addAll_eq_append members st.filterList hdisj hnd]
      exact eraseAll_append members st.filterList hdisj hnd

/-- C10: a surviving cluster whose best mash score is exactly 0.05 is neither
renamed to the nearest reference (that needs score < 0.05) nor dropped by the
no-evidence check (that needs score > 0.05): it is always retained under a
fresh `novel_counter` identity, regardless of marker evidence. -/
theorem namer_boundary_score_novel (repetitive : List (String × String))
    (replicon mob : List (String × List String)) (circular : List String)
    (oracle : Members → MashHit) (st : EmitState) (cid : String)
    (members : Members)
    (hret : clusterDiscard repetitive members ≠ some true)
    (hscore : (oracle members).mash_hit_score = mashThreshold) :
    (processCluster repetitive replicon mob circular oracle st
        (cid, members)).rows =
      st.rows ++ members.map (fun m =>
        { cluster := "novel_" ++ toString st.counter, contig := m.1,
          contigLen := m.2.length, circStatus := m.1 ∈ circular,
          mashTop := (oracle members).top_hit,
          mashScore := some (oracle members).mash_hit_score }) ∧
    (processCluster repetitive replicon mob circular oracle st
        (cid, members)).counter = st.counter + 1 ∧
    (processCluster repetitive replicon mob circular oracle st
        (cid, members)).nLog = st.nLog ++ [st.counter] := by
  have hnodrop : ¬ (mashThreshold < (oracle members).mash_hit_score ∧
      ¬ hasMarkerEvidence replicon mob circular members) := by
    rintro ⟨hgt, -⟩
    rw [hscore] at hgt
    exact lt_irrefl _ hgt
  have hge : ¬ (oracle members).mash_hit_score < mashThreshold := by
    rw [hscore]
    exact lt_irrefl _
  refine ⟨?_, ?_, ?_⟩ <;>
    simp only [processCluster, if_neg hret, if_neg hnodrop, if_neg hge] <;>
    by_cases hfile : ("plasmid_" ++ ("novel_" ++ toString st.counter) ++
        ".fasta") ∈ keys st.files <;>
    simp [hfile]

/-- Witness for the namer behavior at a concrete surviving cluster with mash
score 0 (below the threshold). -/
theorem namer_threshold_behavior_witness :
    (processCluster [] [] [] [] exOracleLow emptyEmit
        ("X", exMembers1)).rows =
      emptyEmit.rows ++ exMembers1.map (fun m =>
        { cluster := (exOracleLow exMembers1).clustid, contig := m.1,
          contigLen := m.2.length, circStatus := m.1 ∈ ([] : List String),
          mashTop := (exOracleLow exMembers1).top_hit,
          mashScore := some (exOracleLow exMembers1).mash_hit_score }) ∧
    (processCluster [] [] [] [] exOracleLow emptyEmit
        ("X", exMembers1)).counter = emptyEmit.counter ∧
    (("plasmid_" ++ (exOracleLow exMembers1).clustid ++ ".fasta") ∈
        keys emptyEmit.files →
      (processCluster [] [] [] [] exOracleLow emptyEmit
          ("X", exMembers1)).files =
        alistSet emptyEmit.files
          ("plasmid_" ++ (exOracleLow exMembers1).clustid ++ ".fasta")
          ((alistGet emptyEmit.files
              ("plasmid_" ++ (exOracleLow exMembers1).clustid ++
                ".fasta")).getD [] ++ exMembers1)) ∧
    (("plasmid_" ++ (exOracleLow exMembers1).clustid ++ ".fasta") ∉
        keys emptyEmit.files →
      (processCluster [] [] [] [] exOracleLow emptyEmit
          ("X", exMembers1)).files =
        emptyEmit.files ++
          [("plasmid_" ++ (exOracleLow exMembers1).clustid ++ ".fasta",
            exMembers1)]) :=
  (namer_threshold_behavior [] [] [] [] exOracleLow emptyEmit "X" exMembers1
      (by simp [exMembers1, clusterDiscard, keys, mkSeq_length])).1 (by decide)

/-- Witness for the boundary-score behavior at a concrete surviving cluster
with mash score exactly 0.05. -/
theorem namer_boundary_score_novel_witness :
    (processCluster [] [] [] [] exOracleEq emptyEmit
        ("X", exMembers1)).rows =
      emptyEmit.rows ++ exMembers1.map (fun m =>
        { cluster := "novel_" ++ toString emptyEmit.counter, contig := m.1,
          contigLen := m.2.length, circStatus := m.1 ∈ ([] : List String),
          mashTop := (exOracleEq exMembers1).top_hit,
          mashScore := some (exOracleEq exMembers1).mash_hit_score }) ∧
    (processCluster [] [] [] [] exOracleEq emptyEmit
        ("X", exMembers1)).counter = emptyEmit.counter + 1 ∧
    (processCluster [] [] [] [] exOracleEq emptyEmit
        ("X", exMembers1)).nLog = emptyEmit.nLog ++ [emptyEmit.counter] :=
  namer_boundary_score_novel [] [] [] [] exOracleEq emptyEmit "X" exMembers1
    (by simp [exMembers1, clusterDiscard, keys, mkSeq_length]) rfl

@[simp] theorem allMems_nil : allMems ([] : SC) = [] := rfl

@[simp] theorem allMems_cons (e : String × Members) (t : SC) :
    allMems (e :: t) = keys e.2 ++ allMems t := rfl

theorem allMems_append (s₁ s₂ : SC) :
    allMems (s₁ ++ s₂) = allMems s₁ ++ allMems s₂ := by
  simp [allMems]

theorem alistGet_append {α : Type} (l₁ l₂ : List (String × α)) (k : String) :
    alistGet (l₁ ++ l₂) k =
      match alistGet l₁ k with
      | some v => some v
      | none => alistGet l₂ k := by
  induction l₁ with
  | nil => simp [alistGet]
  | cons e t ih =>
    by_cases h : e.1 = k <;> simp [alistGet, h, ih]

theorem mem_alistSet_self {α : Type} (l : List (String × α)) (k : String)
    (v : α) : (k, v) ∈ alistSet l k v := by
  induction l with
  | nil => simp [alistSet]
  | cons e t ih =>
    by_cases h : e.1 = k <;> simp [alistSet, h, ih]

theorem mem_alistSet_of_mem {α : Type} {l : List (String × α)} {k : String}
    {v : α} (hm : (k, v) ∈ l) {k' : String} (hne : k ≠ k') (v' : α) :
    (k, v) ∈ alistSet l k' v' := by
  induction l with
  | nil => simp at hm
  | cons e t ih =>
    rcases List.mem_cons.mp hm with he | ht
    · subst he
      rw [alistSet, if_neg ?_]
      · exact List.mem_cons_self _ _
      · simpa using hne
    · by_cases h : e.1 = k'
      · rw [alistSet, if_pos h]
        exact List.mem_cons_of_mem _ ht
      · rw [alistSet, if_neg h]
        exact List.mem_cons_of_mem _ (ih ht)

theorem keys_get_subset_allMems (sc : SC) (c : String) :
    ∀ x ∈ keys ((alistGet sc c).getD []), x ∈ allMems sc := by
  induction sc with
  | nil => simp [alistGet]
  | cons e t ih =>
    intro x hx
    by_cases h : e.1 = c
    · rw [alistGet, if_pos h, Option.getD_some] at hx
      exact List.mem_append_left _ hx
    · rw [alistGet, if_neg h] at hx
      exact List.mem_append_right _ (ih x hx)

theorem allMems_alistSet_not_mem (sc : SC) {c : String} (v : Members)
    (h : c ∉ keys sc) : allMems (alistSet sc c v) = allMems sc ++ keys v := by
  induction sc with
  | nil => simp [alistSet, allMems]
  | cons e t ih =>
    have he : e.1 ≠ c := by intro hc; exact h (by simp [hc])
    have ht : c ∉ keys t := fun hc => h (by simp [hc])
    rw [alistSet, if_neg he]
    simp [ih ht]

theorem allMems_alistSet_mem (sc : SC) {c : String} (v : Members)
    (h : c ∈ keys sc) :
    ∃ pre suf, allMems sc = pre ++ keys ((alistGet sc c).getD []) ++ suf ∧
      allMems (alistSet sc c v) = pre ++ keys v ++ suf := by
  induction sc with
  | nil => simp at h
  | cons e t ih =>
    by_cases he : e.1 = c
    · refine ⟨[], allMems t, ?_, ?_⟩
      · simp [alistGet, he]
      · rw [alistSet, if_pos he]
        simp
    · have ht : c ∈ keys t := by
        rcases List.mem_cons.mp (by simpa using h) with h' | h'
        · exact absurd h'.symm he
        · exact h'
      obtain ⟨pre, suf, hold, hnew⟩ := ih ht
      refine ⟨keys e.2 ++ pre, suf, ?_, ?_⟩
      · rw [allMems_cons, hold, alistGet, if_neg he]
        simp
      · rw [alistSet, if_neg he, allMems_cons, hnew]
        simp

/-- Inserting a member fresh to its target cluster permutes `allMems` to a
cons. -/
theorem allMems_scInsert_perm (sc : SC) (c m seq : String)
    (hm : m ∉ keys ((alistGet sc c).getD [])) :
    (allMems (scInsert sc c m seq)).Perm (m :: allMems sc) := by
  by_cases hc : c ∈ keys sc
  · obtain ⟨pre, suf, hold, hnew⟩ :=
      allMems_alistSet_mem sc (alistSet ((alistGet sc c).getD []) m seq) hc
    rw [scInsert, hnew, keys_alistSet_not_mem _ _ hm, hold]
    have heq : pre ++ (keys ((alistGet sc c).getD []) ++ [m]) ++ suf =
        (pre ++ keys ((alistGet sc c).getD [])) ++ m :: suf := by simp
    rw [heq]
    have heq2 : pre ++ keys ((alistGet sc c).getD []) ++ suf =
        (pre ++ keys ((alistGet sc c).getD [])) ++ suf := by simp
    rw [heq2]
    exact List.perm_middle
  · have hget : alistGet sc c = none := (alistGet_eq_none_iff sc c).mpr hc
    rw [scInsert, hget]
    simp only [Option.getD_none]
    rw [allMems_alistSet_not_mem sc _ hc]
    have hk : keys (alistSet ([] : Members) m seq) = [m] := rfl
    rw [hk]
    exact List.perm_append_singleton m (allMems sc)

/-- Resetting (or freshly creating) a cluster's member map keeps `allMems` a
sublist. -/
theorem allMems_reset_sublist (sc : SC) (c : String) :
    (allMems (alistSet sc c [])).Sublist (allMems sc) := by
  by_cases hc : c ∈ keys sc
  · obtain ⟨pre, suf, hold, hnew⟩ := allMems_alistSet_mem sc [] hc
    rw [hnew, hold]
    have h1 : (pre ++ suf).Sublist
        (pre ++ (keys ((alistGet sc c).getD []) ++ suf)) :=
      (List.sublist_append_right _ suf).append_left pre
    simpa using h1
  · rw [allMems_alistSet_not_mem sc _ hc]
    simp

theorem splitMemberStep_spec (circular : List String)
    (replClusters : List (String × Nat)) (id : String) (origSize : Nat)
    {k₀ : Nat} {st : SplitState} (hinv : DInv k₀ st)
    (mem : String × String) (hfresh : mem.1 ∉ allMems st.refined)
    (hid : ∀ j, k₀ ≤ j → id ≠ "Novel_" ++ toString j) :
    DInv k₀ (splitMemberStep circular replClusters id origSize st mem) ∧
    st.clustId ≤
      (splitMemberStep circular replClusters id origSize st mem).clustId ∧
    (∀ x ∈ allMems
        (splitMemberStep circular replClusters id origSize st mem).refined,
      x = mem.1 ∨ x ∈ allMems st.refined) ∧
    (∀ name val, alistGet st.refined name = some val → name ≠ id →
      (∀ j, st.clustId ≤ j → name ≠ "Novel_" ++ toString j) →
      alistGet (splitMemberStep circular replClusters id origSize st
          mem).refined name = some val) ∧
    (splitCond circular replClusters id origSize mem.1 →
      alistGet (splitMemberStep circular replClusters id origSize st
          mem).refined ("Novel_" ++ toString st.clustId) = some [mem] ∧
      (splitMemberStep circular replClusters id origSize st mem).clustId =
        st.clustId + 1 ∧
      (splitMemberStep circular replClusters id origSize st mem).kLog =
        st.kLog ++ [st.clustId]) ∧
    (¬ splitCond circular replClusters id origSize mem.1 →
      mem ∈ (alistGet (splitMemberStep circular replClusters id origSize st
          mem).refined id).getD [] ∧
      (splitMemberStep circular replClusters id origSize st mem).clustId =
        st.clustId ∧
      (splitMemberStep circular replClusters id origSize st mem).kLog =
        st.kLog) ∧
    (∀ p, p ∈ (alistGet st.refined id).getD [] → p.1 ≠ mem.1 →
      p ∈ (alistGet (splitMemberStep circular replClusters id origSize st
          mem).refined id).getD []) := by
  obtain ⟨hk, hnov, hnd, hlog⟩ := hinv
  by_cases hcond : splitCond circular replClusters id origSize mem.1
  · -- split branch
    have hname : ("Novel_" ++ toString st.clustId) ∉ keys st.refined :=
      hnov st.clustId le_rfl
    have hres : splitMemberStep circular replClusters id origSize st mem =
        { refined := scInsert
            (alistSet st.refined ("Novel_" ++ toString st.clustId) [])
            ("Novel_" ++ toString st.clustId) mem.1 mem.2,
          clustId := st.clustId + 1, kLog := st.kLog ++ [st.clustId] } := by
      rw [splitMemberStep, if_pos hcond]
    have hC : (splitMemberStep circular replClusters id origSize st
        mem).clustId = st.clustId + 1 := by rw [hres]
    have hK : (splitMemberStep circular replClusters id origSize st
        mem).kLog = st.kLog ++ [st.clustId] := by rw [hres]
    have hR : (splitMemberStep circular replClusters id origSize st
        mem).refined = scInsert
          (alistSet st.refined ("Novel_" ++ toString st.clustId) [])
          ("Novel_" ++ toString st.clustId) mem.1 mem.2 := by rw [hres]
    have hget0 : alistGet
        (alistSet st.refined ("Novel_" ++ toString st.clustId) [])
        ("Novel_" ++ toString st.clustId) = some [] :=
      alistGet_set_self _ _ _
    have hgetnew : alistGet (scInsert
        (alistSet st.refined ("Novel_" ++ toString st.clustId) [])
        ("Novel_" ++ toString st.clustId) mem.1 mem.2)
        ("Novel_" ++ toString st.clustId) = some [(mem.1, mem.2)] := by
      rw [scInsert, hget0]
      exact alistGet_set_self _ _ _
    have hmems0 : allMems
        (alistSet st.refined ("Novel_" ++ toString st.clustId) []) =
        allMems st.refined := by
      rw [allMems_alistSet_not_mem st.refined _ hname]
      simp
    have hperm : (allMems (scInsert
        (alistSet st.refined ("Novel_" ++ toString st.clustId) [])
        ("Novel_" ++ toString st.clustId) mem.1 mem.2)).Perm
        (mem.1 :: allMems st.refined) := by
      have := allMems_scInsert_perm
        (alistSet st.refined ("Novel_" ++ toString st.clustId) [])
        ("Novel_" ++ toString st.clustId) mem.1 mem.2 (by rw [hget0]; simp)
      rwa [hmems0] at this
    have hkeysnew : ∀ x, x ∈ keys (scInsert
        (alistSet st.refined ("Novel_" ++ toString st.clustId) [])
        ("Novel_" ++ toString st.clustId) mem.1 mem.2) →
        x ∈ keys st.refined ∨ x = "Novel_" ++ toString st.clustId := by
      intro x hx
      rw [scInsert, keys_alistSet_mem _ _ (by
          rw [mem_keys_iff_isSome, hget0]; rfl),
        keys_alistSet_not_mem st.refined _ hname] at hx
      simpa using hx
    refine ⟨⟨?_, ?_, ?_, ?_⟩, ?_, ?_, ?_, ?_, ?_, ?_⟩
    · rw [hC]; omega
    · -- no future Novel name present
      intro j hj hmem
      rw [hC] at hj
      rw [hR] at hmem
      rcases hkeysnew _ hmem with hin | heq
      · exact hnov j (by omega) hin
      · have hj' : j = st.clustId := novelName_inj heq
        omega
    · -- nodup membership
      rw [hR]
      exact (hperm.nodup_iff).mpr (List.nodup_cons.mpr ⟨hfresh, hnd⟩)
    · -- log values in the past, strictly increasing
      constructor
      · intro x hx
        rw [hK] at hx
        rw [hC]
        rcases List.mem_append.mp hx with h | h
        · exact lt_trans (hlog.1 x h) (Nat.lt_succ_self _)
        · rw [List.mem_singleton.mp h]
          exact Nat.lt_succ_self _
      · rw [hK]
        refine List.pairwise_append.mpr
          ⟨hlog.2, List.pairwise_singleton _ _, ?_⟩
        intro a ha b hb
        rw [List.mem_singleton.mp hb]
        exact hlog.1 a ha
    · rw [hC]; omega
    · intro x hx
      rw [hR] at hx
      rcases List.mem_cons.mp (hperm.mem_iff.mp hx) with h | h
      · exact Or.inl h
      · exact Or.inr h
    · intro name val hget hne hnovname
      rw [hR, scInsert]
      have hne' : name ≠ "Novel_" ++ toString st.clustId :=
        hnovname st.clustId le_rfl
      rw [alistGet_set_ne _ _ hne', alistGet_set_ne _ _ hne']
      exact hget
    · intro _
      exact ⟨by rw [hR]; simpa using hgetnew, hC, hK⟩
    · intro hcontra
      exact absurd hcond hcontra
    · intro p hp hpne
      rw [hR, scInsert]
      have hne' : id ≠ "Novel_" ++ toString st.clustId := hid st.clustId hk
      rw [alistGet_set_ne _ _ hne', alistGet_set_ne _ _ hne']
      exact hp
  · -- carry branch
    have hres : splitMemberStep circular replClusters id origSize st mem =
        { st with refined := scInsert st.refined id mem.1 mem.2 } := by
      rw [splitMemberStep, if_neg hcond]
    have hC : (splitMemberStep circular replClusters id origSize st
        mem).clustId = st.clustId := by rw [hres]
    have hK : (splitMemberStep circular replClusters id origSize st
        mem).kLog = st.kLog := by rw [hres]
    have hR : (splitMemberStep circular replClusters id origSize st
        mem).refined = scInsert st.refined id mem.1 mem.2 := by rw [hres]
    have hmemfresh : mem.1 ∉ keys ((alistGet st.refined id).getD []) :=
      fun hc => hfresh (keys_get_subset_allMems st.refined id mem.1 hc)
    have hperm := allMems_scInsert_perm st.refined id mem.1 mem.2 hmemfresh
    refine ⟨⟨?_, ?_, ?_, ?_⟩, ?_, ?_, ?_, ?_, ?_, ?_⟩
    · rw [hC]; exact hk
    · intro j hj hmem
      rw [hC] at hj
      rw [hR, scInsert] at hmem
      have hcases : ("Novel_" ++ toString j) ∈ keys st.refined ∨
          ("Novel_" ++ toString j) = id := by
        by_cases hidk : id ∈ keys st.refined
        · rw [keys_alistSet_mem _ _ hidk] at hmem
          exact Or.inl hmem
        · rw [keys_alistSet_not_mem _ _ hidk] at hmem
          simpa using hmem
      rcases hcases with h | h
      · exact hnov j hj h
      · exact hid j (le_trans hk hj) h.symm
    · rw [hR]
      exact (hperm.nodup_iff).mpr (List.nodup_cons.mpr ⟨hfresh, hnd⟩)
    · rw [hK, hC]
      exact hlog
    · rw [hC]
    · intro x hx
      rw [hR] at hx
      rcases List.mem_cons.mp (hperm.mem_iff.mp hx) with h | h
      · exact Or.inl h
      · exact Or.inr h
    · intro name val hget hne _
      rw [hR, scInsert, alistGet_set_ne _ _ hne]
      exact hget
    · intro hcontra
      exact absurd hcontra hcond
    · intro _
      refine ⟨?_, hC, hK⟩
      rw [hR, scInsert, alistGet_set_self, Option.getD_some]
      exact mem_alistSet_self _ _ _
    · intro p hp hpne
      rw [hR, scInsert, alistGet_set_self, Option.getD_some]
      exact mem_alistSet_of_mem hp hpne _

theorem splitMemberFold_spec (circular : List String)
    (replClusters : List (String × Nat)) (id : String) (origSize : Nat)
    {k₀ : Nat} :
    ∀ (mems : Members) (st : SplitState), DInv k₀ st →
      (∀ mem ∈ mems, mem.1 ∉ allMems st.refined) →
      (mems.map Prod.fst).Nodup →
      (∀ j, k₀ ≤ j → id ≠ "Novel_" ++ toString j) →
      DInv k₀ (mems.foldl
        (splitMemberStep circular replClusters id origSize) st) ∧
      st.clustId ≤ (mems.foldl
        (splitMemberStep circular replClusters id origSize) st).clustId ∧
      (∀ x ∈ allMems (mems.foldl
          (splitMemberStep circular replClusters id origSize) st).refined,
        x ∈ mems.map Prod.fst ∨ x ∈ allMems st.refined) ∧
      (∀ name val, alistGet st.refined name = some val → name ≠ id →
        (∀ j, st.clustId ≤ j → name ≠ "Novel_" ++ toString j) →
        alistGet (mems.foldl
          (splitMemberStep circular replClusters id origSize) st).refined
          name = some val) ∧
      (∀ mem ∈ mems, splitCond circular replClusters id origSize mem.1 →
        ∃ n, st.clustId ≤ n ∧
          n < (mems.foldl
            (splitMemberStep circular replClusters id origSize) st).clustId ∧
          alistGet (mems.foldl
            (splitMemberStep circular replClusters id origSize) st).refined
            ("Novel_" ++ toString n) = some [mem]) ∧
      (∀ mem ∈ mems, ¬ splitCond circular replClusters id origSize mem.1 →
        mem ∈ (alistGet (mems.foldl
          (splitMemberStep circular replClusters id origSize) st).refined
          id).getD []) ∧
      (∀ p, p ∈ (alistGet st.refined id).getD [] →
        p.1 ∉ mems.map Prod.fst →
        p ∈ (alistGet (mems.foldl
          (splitMemberStep circular replClusters id origSize) st).refined
          id).getD []) := by
  intro mems
  induction mems with
  | nil =>
    intro st hinv _ _ _
    refine ⟨hinv, le_rfl, ?_, ?_, ?_, ?_, ?_⟩ <;> simp
    intro name val h _ _
    exact h
  | cons mem rest ih =>
    intro st hinv hfreshs hnd hid
    have hfresh : mem.1 ∉ allMems st.refined :=
      hfreshs mem (List.mem_cons_self _ _)
    obtain ⟨hinv', hmono', hsub', hstab', hsplit', hcarry', hpres'⟩ :=
      splitMemberStep_spec circular replClusters id origSize hinv mem hfresh
        hid
    have hndrest : (rest.map Prod.fst).Nodup :=
      (List.nodup_cons.mp (by simpa using hnd)).2
    have hmemrest : mem.1 ∉ rest.map Prod.fst :=
      (List.nodup_cons.mp (by simpa using hnd)).1
    have hfreshrest : ∀ m ∈ rest, m.1 ∉ allMems
        (splitMemberStep circular replClusters id origSize st mem).refined := by
      intro m hm hcontra
      rcases hsub' m.1 hcontra with h | h
      · exact hmemrest (h ▸ List.mem_map_of_mem Prod.fst hm)
      · exact hfreshs m (List.mem_cons_of_mem _ hm) h
    obtain ⟨ihinv, ihmono, ihsub, ihstab, ihsplit, ihcarry, ihpres⟩ :=
      ih (splitMemberStep circular replClusters id origSize st mem) hinv'
        hfreshrest hndrest hid
    have hk₀ : k₀ ≤ st.clustId := hinv.1
    rw [List.foldl_cons]
    refine ⟨ihinv, le_trans hmono' ihmono, ?_, ?_, ?_, ?_, ?_⟩
    · intro x hx
      rcases ihsub x hx with h | h
      · exact Or.inl (by simp [h])
      · rcases hsub' x h with h' | h'
        · exact Or.inl (by simp [h'])
        · exact Or.inr h'
    · intro name val hget hne hnovname
      refine ihstab name val
        (hstab' name val hget hne (fun j hj => hnovname j hj)) hne ?_
      intro j hj
      exact hnovname j (le_trans hmono' hj)
    · intro m hm hcond
      rcases List.mem_cons.mp hm with hhead | htail
      · subst hhead
        obtain ⟨hentry, hC, _⟩ := hsplit' hcond
        refine ⟨st.clustId, le_rfl, ?_, ?_⟩
        · calc st.clustId < st.clustId + 1 := Nat.lt_succ_self _
            _ = (splitMemberStep circular replClusters id origSize st
                  m).clustId := hC.symm
            _ ≤ _ := ihmono
        · refine ihstab _ _ hentry (Ne.symm (hid st.clustId hk₀)) ?_
          intro j hj heq
          have := novelName_inj heq
          rw [hC] at hj
          omega
      · obtain ⟨n, hn, hnlt, hentry⟩ := ihsplit m htail hcond
        exact ⟨n, le_trans hmono' hn, hnlt, hentry⟩
    · intro m hm hcond
      rcases List.mem_cons.mp hm with hhead | htail
      · subst hhead
        obtain ⟨hmem, _, _⟩ := hcarry' hcond
        refine ihpres m hmem ?_
        simpa using hmemrest
      · exact ihcarry m htail hcond
    · intro p hp hpn
      have hpn' : p.1 ≠ mem.1 := by
        intro hc
        exact hpn (by simp [hc])
      refine ihpres p (hpres' p hp hpn') ?_
      intro hc
      exact hpn (by simp [hc])

theorem splitClusterStep_spec (circular : List String)
    (replClusters : List (String × Nat)) {k₀ : Nat} (st : SplitState)
    (e : String × Members) (hinv : DInv k₀ st)
    (hfreshs : ∀ mem ∈ e.2, mem.1 ∉ allMems st.refined)
    (hnd : (e.2.map Prod.fst).Nodup)
    (hid : ∀ j, k₀ ≤ j → e.1 ≠ "Novel_" ++ toString j) :
    DInv k₀ (splitClusterStep circular replClusters st e) ∧
    st.clustId ≤ (splitClusterStep circular replClusters st e).clustId ∧
    (∀ x ∈ allMems (splitClusterStep circular replClusters st e).refined,
      x ∈ e.2.map Prod.fst ∨ x ∈ allMems st.refined) ∧
    (∀ name val, alistGet st.refined name = some val → name ≠ e.1 →
      (∀ j, st.clustId ≤ j → name ≠ "Novel_" ++ toString j) →
      alistGet (splitClusterStep circular replClusters st e).refined name =
        some val) ∧
    (∀ mem ∈ e.2, splitCond circular replClusters e.1 e.2.length mem.1 →
      ∃ n, st.clustId ≤ n ∧
        n < (splitClusterStep circular replClusters st e).clustId ∧
        alistGet (splitClusterStep circular replClusters st e).refined
          ("Novel_" ++ toString n) = some [mem]) ∧
    (∀ mem ∈ e.2, ¬ splitCond circular replClusters e.1 e.2.length mem.1 →
      mem ∈ (alistGet (splitClusterStep circular replClusters st e).refined
        e.1).getD []) := by
  obtain ⟨hk, hnov, hndall, hlog⟩ := hinv
  -- the state after the `refined[id] = dict()` creation of line 580
  have hstep : splitClusterStep circular replClusters st e =
      e.2.foldl (splitMemberStep circular replClusters e.1 e.2.length)
        (if e.1 ∈ keys st.refined then st
         else { st with refined := st.refined ++ [(e.1, [])] }) := by
    rw [splitClusterStep]
  by_cases hkey : e.1 ∈ keys st.refined
  · rw [hstep, if_pos hkey]
    obtain ⟨h1, h2, h3, h4, h5, h6, -⟩ :=
      splitMemberFold_spec circular replClusters e.1 e.2.length e.2 st
        ⟨hk, hnov, hndall, hlog⟩ hfreshs hnd hid
    exact ⟨h1, h2, h3, fun name val hg hne hnn => h4 name val hg hne hnn,
      h5, h6⟩
  · rw [hstep, if_neg hkey]
    have hmems : allMems (st.refined ++ [(e.1, [])]) = allMems st.refined := by
      rw [allMems_append]
      simp [allMems]
    have hinv₀ : DInv k₀ { st with refined := st.refined ++ [(e.1, [])] } := by
      refine ⟨hk, ?_, ?_, hlog⟩
      · intro j hj hc
        rw [keys_append] at hc
        rcases List.mem_append.mp hc with h | h
        · exact hnov j hj h
        · have : ("Novel_" ++ toString j) = e.1 := by simpa using h
          exact hid j (le_trans hk hj) this.symm
      · simpa [hmems] using hndall
    have hfreshs₀ : ∀ mem ∈ e.2, mem.1 ∉ allMems
        (st.refined ++ [(e.1, [])]) := by
      intro mem hm
      rw [hmems]
      exact hfreshs mem hm
    obtain ⟨h1, h2, h3, h4, h5, h6, -⟩ :=
      splitMemberFold_spec circular replClusters e.1 e.2.length e.2
        { st with refined := st.refined ++ [(e.1, [])] } hinv₀ hfreshs₀ hnd
        hid
    refine ⟨h1, h2, ?_, ?_, h5, h6⟩
    · intro x hx
      rcases h3 x hx with h | h
      · exact Or.inl h
      · exact Or.inr (by rwa [hmems] at h)
    · intro name val hg hne hnn
      refine h4 name val ?_ hne hnn
      show alistGet (st.refined ++ [(e.1, [])]) name = some val
      rw [alistGet_append, hg]

theorem splitFold_spec (circular : List String)
    (replClusters : List (String × Nat)) {k₀ : Nat} :
    ∀ (sc : SC) (st : SplitState), DInv k₀ st →
      (allMems st.refined ++ allMems sc).Nodup →
      (∀ e ∈ sc, ∀ j, k₀ ≤ j → e.1 ≠ "Novel_" ++ toString j) →
      (keys sc).Nodup →
      DInv k₀ (sc.foldl (splitClusterStep circular replClusters) st) ∧
      st.clustId ≤
        (sc.foldl (splitClusterStep circular replClusters) st).clustId ∧
      (∀ x ∈ allMems
          (sc.foldl (splitClusterStep circular replClusters) st).refined,
        x ∈ allMems st.refined ∨ x ∈ allMems sc) ∧
      (∀ name val, alistGet st.refined name = some val → name ∉ keys sc →
        (∀ j, st.clustId ≤ j → name ≠ "Novel_" ++ toString j) →
        alistGet (sc.foldl (splitClusterStep circular replClusters)
          st).refined name = some val) ∧
      (∀ e ∈ sc, ∀ mem ∈ e.2,
        (splitCond circular replClusters e.1 e.2.length mem.1 →
          ∃ n, k₀ ≤ n ∧
            alistGet (sc.foldl (splitClusterStep circular replClusters)
              st).refined ("Novel_" ++ toString n) = some [mem]) ∧
        (¬ splitCond circular replClusters e.1 e.2.length mem.1 →
          mem ∈ (alistGet (sc.foldl (splitClusterStep circular replClusters)
            st).refined e.1).getD [])) := by
  intro sc
  induction sc with
  | nil =>
    intro st hinv _ _ _
    refine ⟨hinv, le_rfl, ?_, ?_, ?_⟩
    · simp
    · intro name val h _ _
      exact h
    · simp
  | cons e rest ih =>
    intro st hinv hndall hfreshids hndkeys
    have hnd3 := hndall
    rw [allMems_cons, ← List.append_assoc] at hnd3
    have hsplit3 := List.nodup_append.mp hnd3
    have hsplitA := List.nodup_append.mp hsplit3.1
    have hfreshs : ∀ mem ∈ e.2, mem.1 ∉ allMems st.refined := by
      intro mem hm hc
      exact hsplitA.2.2 hc (by
        simpa [keys] using List.mem_map_of_mem Prod.fst hm)
    have hndmem : (e.2.map Prod.fst).Nodup := by
      simpa [keys] using hsplitA.2.1
    have hide : ∀ j, k₀ ≤ j → e.1 ≠ "Novel_" ++ toString j :=
      hfreshids e (List.mem_cons_self _ _)
    obtain ⟨cinv, cmono, csub, cstab, csplit, ccarry⟩ :=
      splitClusterStep_spec circular replClusters st e
        hinv hfreshs hndmem hide
    have hndnext : (allMems
        (splitClusterStep circular replClusters st e).refined ++
        allMems rest).Nodup := by
      rw [List.nodup_append]
      refine ⟨cinv.2.2.1, (List.nodup_append.mp hndall).2.1.sublist ?_, ?_⟩
      · rw [allMems_cons]
        exact List.sublist_append_right _ _
      · intro x hx hx'
        rcases csub x hx with h | h
        · exact (List.nodup_append.mp hnd3).2.2
            (List.mem_append_right _ (by simpa [keys] using h)) hx'
        · exact (List.nodup_append.mp hndall).2.2 h
            (by rw [allMems_cons]; exact List.mem_append_right _ hx')
    obtain ⟨finv, fmono, fsub, fstab, ffacts⟩ :=
      ih (splitClusterStep circular replClusters st e) cinv hndnext
        (fun e' he' => hfreshids e' (List.mem_cons_of_mem _ he'))
        (List.nodup_cons.mp (by simpa using hndkeys)).2
    rw [List.foldl_cons]
    refine ⟨finv, le_trans cmono fmono, ?_, ?_, ?_⟩
    · intro x hx
      rcases fsub x hx with h | h
      · rcases csub x h with h' | h'
        · refine Or.inr ?_
          rw [allMems_cons]
          exact List.mem_append_left _ (by simpa [keys] using h')
        · exact Or.inl h'
      · refine Or.inr ?_
        rw [allMems_cons]
        exact List.mem_append_right _ h
    · intro name val hg hkeys hnn
      have hne : name ≠ e.1 := by
        intro hc
        exact hkeys (by simp [hc])
      refine fstab name val (cstab name val hg hne hnn) ?_ ?_
      · intro hc
        exact hkeys (by simp [hc])
      · intro j hj
        exact hnn j (le_trans cmono hj)
    · intro e' he' mem hmem
      rcases List.mem_cons.mp he' with hhead | htail
      · subst hhead
        constructor
        · intro hcond
          obtain ⟨n, hn1, hn2, hentry⟩ := csplit mem hmem hcond
          refine ⟨n, le_trans hinv.1 hn1, ?_⟩
          refine fstab _ _ hentry ?_ ?_
          · intro hc
            obtain ⟨p, hp, hpeq⟩ := List.mem_map.mp hc
            exact hfreshids p (List.mem_cons_of_mem _ hp) n
              (le_trans hinv.1 hn1) hpeq
          · intro j hj heq
            have hnj := novelName_inj heq
            omega
        · intro hcond
          have hmem' := ccarry mem hmem hcond
          cases hg : alistGet
              (splitClusterStep circular replClusters st e').refined e'.1 with
          | none =>
            rw [hg] at hmem'
            simp at hmem'
          | some inner₁ =>
            rw [hg, Option.getD_some] at hmem'
            have hfinal := fstab e'.1 inner₁ hg
              (List.nodup_cons.mp (by simpa using hndkeys)).1
              (fun j hj => hide j (le_trans (le_trans hinv.1 cmono) hj))
            rw [hfinal, Option.getD_some]
            exact hmem'
      · exact ffacts e' htail mem hmem

/-- C3 counterexample: cluster `X` has exactly one distinct replicon-bearing
contig (`A`, which carries two replicon hits), so by the claim it should be
left untouched; but `replicon_clusters` counts hits (lines 565–574), giving
`X ↦ 2 > 1`, and the splitter moves both circular members out into fresh
`Novel_k` singletons. -/
theorem circular_splitter_counts_hits_not_contigs :
    (([("A", "sA"), ("B", "sB")] : Members).filter
        (fun m => m.1 ∈ keys repliconExC3)).length = 1 ∧
    buildRepliconClusters repliconExC3 pclExC3 = [("X", 2)] ∧
    (stageD circularExC3 (buildRepliconClusters repliconExC3 pclExC3)
        scExC3 0 []).refined =
      [("X", []), ("Novel_0", [("A", "sA")]),
       ("Novel_1", [("B", "sB")])] := by
  decide

/-- C3 (amended): for every cluster of the Circular Splitter's input — if a
member is circular, the cluster has more than one member, and the cluster's
total replicon **hit** count (`replicon_clusters`, one increment per hit, not
the number of distinct replicon-bearing contigs) exceeds one, that member is
moved into its own fresh `Novel_k` singleton cluster; every other member
(non-circular, or in a cluster with at most one replicon hit, or alone) stays
in its original cluster. -/
theorem circular_splitter_spec (circular : List String)
    (replClusters : List (String × Nat)) (sc : SC) (k₀ : Nat)
    (hnd : (allMems sc).Nodup) (hkeys : (keys sc).Nodup)
    (hfresh : ∀ e ∈ sc, ∀ n, k₀ ≤ n → e.1 ≠ "Novel_" ++ toString n) :
    ∀ e ∈ sc, ∀ mem ∈ e.2,
      ((mem.1 ∈ circular ∧ e.2.length > 1 ∧
          (alistGet replClusters e.1).getD 0 > 1) →
        ∃ n, k₀ ≤ n ∧
          alistGet (stageD circular replClusters sc k₀ []).refined
            ("Novel_" ++ toString n) = some [mem]) ∧
      (¬ (mem.1 ∈ circular ∧ e.2.length > 1 ∧
          (alistGet replClusters e.1).getD 0 > 1) →
        mem ∈ (alistGet (stageD circular replClusters sc k₀ []).refined
          e.1).getD []) := by
  have h := splitFold_spec circular replClusters sc
    { refined := [], clustId := k₀, kLog := [] }
    ⟨le_rfl, by intro j _ hc; simp [keys] at hc, by simp, by simp⟩
    (by simpa using hnd) hfresh hkeys
  intro e he mem hmem
  exact h.2.2.2.2 e he mem hmem

/-- Witness for the amended splitter rule on the two-circular-contigs
cluster. -/
theorem circular_splitter_spec_witness :
    ∃ n, 0 ≤ n ∧
      alistGet (stageD circularExC3 [("X", 2)] scExC3 0 []).refined
        ("Novel_" ++ toString n) = some [(("A" : String), ("sA" : String))] :=
  (circular_splitter_spec circularExC3 [("X", 2)] scExC3 0 (by decide)
    (by decide)
    (by
      intro e he n _
      have he' : e = ("X", [("A", "sA"), ("B", "sB")]) := by
        simpa [scExC3] using he
      rw [he']
      exact ne_append_of_length_lt (by decide))
    ("X", [("A", "sA"), ("B", "sB")]) (by decide)
    ("A", "sA") (by decide)).1 (by decide)

theorem LogInv_nil (ctr : Nat) : LogInv [] ctr :=
  ⟨by simp, List.Pairwise.nil⟩

theorem LogInv_append {log : List Nat} {ctr : Nat} (h : LogInv log ctr) :
    LogInv (log ++ [ctr]) (ctr + 1) := by
  constructor
  · intro x hx
    rcases List.mem_append.mp hx with h' | h'
    · exact lt_trans (h.1 x h') (Nat.lt_succ_self _)
    · rw [List.mem_singleton.mp h']
      exact Nat.lt_succ_self _
  · refine List.pairwise_append.mpr ⟨h.2, List.pairwise_singleton _ _, ?_⟩
    intro a ha b hb
    rw [List.mem_singleton.mp hb]
    exact h.1 a ha

theorem LogInv_mono {log : List Nat} {ctr ctr' : Nat} (h : LogInv log ctr)
    (hle : ctr ≤ ctr') : LogInv log ctr' :=
  ⟨fun x hx => lt_of_lt_of_le (h.1 x hx) hle, h.2⟩

theorem novelStep_log (contigSeqs : List (String × String))
    (st : NovelState) (m : String) (h : LogInv st.kLog st.clustId) :
    LogInv (novelStep contigSeqs st m).kLog
      (novelStep contigSeqs st m).clustId ∧
    st.clustId ≤ (novelStep contigSeqs st m).clustId := by
  rw [novelStep]
  split_ifs with h1 h2
  · exact ⟨h, le_rfl⟩
  · exact ⟨LogInv_append h, Nat.le_succ _⟩
  · exact ⟨LogInv_mono h (Nat.le_succ _), Nat.le_succ _⟩

theorem novelFold_log (contigSeqs : List (String × String)) :
    ∀ (ms : List String) (st : NovelState), LogInv st.kLog st.clustId →
      LogInv (ms.foldl (novelStep contigSeqs) st).kLog
        (ms.foldl (novelStep contigSeqs) st).clustId ∧
      st.clustId ≤ (ms.foldl (novelStep contigSeqs) st).clustId := by
  intro ms
  induction ms with
  | nil => intro st h; exact ⟨h, le_rfl⟩
  | cons m rest ih =>
    intro st h
    obtain ⟨h', hmono⟩ := novelStep_log contigSeqs st m h
    obtain ⟨h'', hmono'⟩ := ih (novelStep contigSeqs st m) h'
    exact ⟨h'', le_trans hmono hmono'⟩

theorem splitMemberStep_log (circular : List String)
    (replClusters : List (String × Nat)) (id : String) (origSize : Nat)
    (st : SplitState) (mem : String × String)
    (h : LogInv st.kLog st.clustId) :
    LogInv (splitMemberStep circular replClusters id origSize st mem).kLog
      (splitMemberStep circular replClusters id origSize st mem).clustId ∧
    st.clustId ≤
      (splitMemberStep circular replClusters id origSize st mem).clustId := by
  rw [splitMemberStep]
  split_ifs with h1
  · exact ⟨LogInv_append h, Nat.le_succ _⟩
  · exact ⟨h, le_rfl⟩

theorem splitMemberFold_log (circular : List String)
    (replClusters : List (String × Nat)) (id : String) (origSize : Nat) :
    ∀ (mems : Members) (st : SplitState), LogInv st.kLog st.clustId →
      LogInv (mems.foldl
          (splitMemberStep circular replClusters id origSize) st).kLog
        (mems.foldl
          (splitMemberStep circular replClusters id origSize) st).clustId ∧
      st.clustId ≤ (mems.foldl
        (splitMemberStep circular replClusters id origSize) st).clustId := by
  intro mems
  induction mems with
  | nil => intro st h; exact ⟨h, le_rfl⟩
  | cons mem rest ih =>
    intro st h
    rw [List.foldl_cons]
    obtain ⟨h', hmono⟩ :=
      splitMemberStep_log circular replClusters id origSize st mem h
    obtain ⟨h'', hmono'⟩ := ih _ h'
    exact ⟨h'', le_trans hmono hmono'⟩

theorem splitClusterStep_log (circular : List String)
    (replClusters : List (String × Nat)) (st : SplitState)
    (e : String × Members) (h : LogInv st.kLog st.clustId) :
    LogInv (splitClusterStep circular replClusters st e).kLog
      (splitClusterStep circular replClusters st e).clustId ∧
    st.clustId ≤ (splitClusterStep circular replClusters st e).clustId := by
  rw [splitClusterStep]
  have hbase : LogInv (if e.1 ∈ keys st.refined then st
      else { st with refined := st.refined ++ [(e.1, [])] }).kLog
      (if e.1 ∈ keys st.refined then st
      else { st with refined := st.refined ++ [(e.1, [])] }).clustId := by
    split_ifs <;> exact h
  have hctr : (if e.1 ∈ keys st.refined then st
      else { st with refined := st.refined ++ [(e.1, [])] }).clustId =
      st.clustId := by
    split_ifs <;> rfl
  obtain ⟨h1, h2⟩ := splitMemberFold_log circular replClusters e.1
    e.2.length e.2 _ hbase
  exact ⟨h1, le_trans (le_of_eq hctr.symm) h2⟩

theorem splitFold_log (circular : List String)
    (replClusters : List (String × Nat)) :
    ∀ (sc : SC) (st : SplitState), LogInv st.kLog st.clustId →
      LogInv (sc.foldl (splitClusterStep circular replClusters) st).kLog
        (sc.foldl (splitClusterStep circular replClusters) st).clustId := by
  intro sc
  induction sc with
  | nil => intro st h; exact h
  | cons e rest ih =>
    intro st h
    exact ih _ (splitClusterStep_log circular replClusters st e h).1

theorem processCluster_log (repetitive : List (String × String))
    (replicon mob : List (String × List String)) (circular : List String)
    (oracle : Members → MashHit) (st : EmitState) (e : String × Members)
    (h : LogInv st.nLog st.counter) :
    LogInv (processCluster repetitive replicon mob circular oracle st
        e).nLog
      (processCluster repetitive replicon mob circular oracle st
        e).counter := by
  by_cases h1 : clusterDiscard repetitive e.2 = some true
  · rw [processCluster, if_pos h1]
    exact h
  · by_cases h2 : mashThreshold < (oracle e.2).mash_hit_score ∧
        ¬ hasMarkerEvidence replicon mob circular e.2
    · simp only [processCluster, if_neg h1, if_pos h2]
      exact h
    · by_cases hlt : (oracle e.2).mash_hit_score < mashThreshold
      · simp only [processCluster, if_neg h1, if_neg h2, if_pos hlt]
        exact h
      · simp only [processCluster, if_neg h1, if_neg h2, if_neg hlt]
        exact LogInv_append h

theorem emitFold_log (repetitive : List (String × String))
    (replicon mob : List (String × List String)) (circular : List String)
    (oracle : Members → MashHit) :
    ∀ (sc : SC) (st : EmitState), LogInv st.nLog st.counter →
      LogInv (sc.foldl
          (processCluster repetitive replicon mob circular oracle) st).nLog
        (sc.foldl
          (processCluster repetitive replicon mob circular oracle)
          st).counter := by
  intro sc
  induction sc with
  | nil => intro st h; exact h
  | cons e rest ih =>
    intro st h
    exact ih _ (processCluster_log repetitive replicon mob circular oracle
      st e h)

/-- C6 (amended): within each family of synthesized identifiers separately —
the `Novel_k` clusters (marker loops and circular splitter, counter
`clust_id`) and the `novel_N` identities (namer, counter `counter`) — the
numeric suffixes strictly increase in creation order and are never reused;
the two families use independent counters both starting at 0, so the same
numeral can appear once in each family within a run. -/
theorem novel_suffixes_monotone_per_family (inp : PipelineInput)
    (oracle : Members → MashHit) :
    (mainPipeline inp oracle).kLog.Pairwise (· < ·) ∧
    (mainPipeline inp oracle).nLog.Pairwise (· < ·) := by
  rw [mainPipeline]
  simp only
  constructor
  · refine (splitFold_log inp.circular _ _ _ ?_).2
    have hB := novelFold_log inp.contigSeqs (inp.replicon.map Prod.fst) _
      (novelFold_log inp.contigSeqs (inp.mob.map Prod.fst)
        { pcl := contig_blast_group inp.minOverlap inp.hits,
          sc := (stageA inp.contigSeqs
            (contig_blast_group inp.minOverlap inp.hits)).1,
          clustId := 0, kLog := [] } (LogInv_nil 0)).1
    exact hB.1
  · exact (emitFold_log inp.repetitive inp.replicon inp.mob inp.circular
      oracle _
      { filterList := [], counter := 0, files := [], rows := [], nLog := [] }
      (LogInv_nil 0)).2

set_option maxRecDepth 1000000 in
/-- C6 counterexample: on `exInpC6` the chronological suffixes of all
synthesized identifiers are `[0, 0, 1]` (`Novel_0`, then `novel_0` and
`novel_1`): the combined sequence is not strictly increasing and the suffix 0
is used twice within the run, because the `Novel_k` and `novel_N` counters
are independent and both start at 0. -/
theorem novel_suffix_sequence_not_increasing :
    synthSuffixes (mainPipeline exInpC6 exOracleHigh) = [0, 0, 1] ∧
    ¬ (synthSuffixes (mainPipeline exInpC6 exOracleHigh)).Pairwise
        (· < ·) ∧
    ¬ (synthSuffixes (mainPipeline exInpC6 exOracleHigh)).Nodup := by
  have h : synthSuffixes (mainPipeline exInpC6 exOracleHigh) = [0, 0, 1] := by
    decide
  refine ⟨h, ?_, ?_⟩ <;> rw [h] <;> decide

/-! ## The partition property (claim C1)

A contig id is claimed at most once across all cluster memberships at every
stage (the source's assignment-tracking dict), and the final report lists
every assembly contig exactly once: under its retained cluster when its
cluster survives, under `chromosome` otherwise. -/

/-- The claiming step keeps the cluster memberships globally duplicate-free,
keeps every member recorded in the assignment-tracking dict, and records only
contigs of `pcl_clusters`. -/
theorem stageAClaim_inv (contigSeqs : List (String × String))
    (pcl : List (String × List (String × Int))) (c : String)
    (st : SC × List (String × String)) (p : String × List (String × Int))
    (hp : p.1 ∈ keys pcl)
    (h1 : (allMems st.1).Nodup)
    (h2 : ∀ x ∈ allMems st.1, x ∈ keys st.2)
    (h3 : ∀ x ∈ keys st.2, x ∈ keys pcl) :
    (allMems (stageAClaim contigSeqs c st p).1).Nodup ∧
    (∀ x ∈ allMems (stageAClaim contigSeqs c st p).1,
      x ∈ keys (stageAClaim contigSeqs c st p).2) ∧
    (∀ x ∈ keys (stageAClaim contigSeqs c st p).2, x ∈ keys pcl) := by
  by_cases hc : c ∈ keys p.2
  · by_cases hcl : p.1 ∈ keys contigSeqs ∧ p.1 ∉ keys st.2
    · simp only [stageAClaim, if_pos hc, if_pos hcl]
      have hfresh : p.1 ∉ keys ((alistGet st.1 c).getD []) := by
        intro hmem
        exact hcl.2 (h2 _ (keys_get_subset_allMems st.1 c _ hmem))
      have hperm := allMems_scInsert_perm st.1 c p.1
        ((alistGet contigSeqs p.1).getD "") hfresh
      have hnotall : p.1 ∉ allMems st.1 := fun hx => hcl.2 (h2 _ hx)
      have hkeys2 : keys (alistSet st.2 p.1 c) = keys st.2 ++ [p.1] :=
        keys_alistSet_not_mem st.2 c hcl.2
      refine ⟨?_, ?_, ?_⟩
      · exact hperm.nodup_iff.mpr (List.nodup_cons.mpr ⟨hnotall, h1⟩)
      · intro x hx
        rw [hkeys2]
        rcases List.mem_cons.mp (hperm.mem_iff.mp hx) with he | ht
        · exact List.mem_append_right _ (by simp [he])
        · exact List.mem_append_left _ (h2 x ht)
      · intro x hx
        rw [hkeys2] at hx
        rcases List.mem_append.mp hx with h' | h'
        · exact h3 x h'
        · have : x = p.1 := by simpa using h'
          exact this ▸ hp
    · simp only [stageAClaim, if_pos hc, if_neg hcl]
      exact ⟨h1, h2, h3⟩
  · simp only [stageAClaim, if_neg hc]
    exact ⟨h1, h2, h3⟩

/-- The invariant of `stageAClaim_inv` through the claiming fold. -/
theorem stageAClaimFold_inv (contigSeqs : List (String × String))
    (pcl : List (String × List (String × Int))) (c : String) :
    ∀ (l : List (String × List (String × Int)))
      (st : SC × List (String × String)),
      (∀ p ∈ l, p.1 ∈ keys pcl) →
      (allMems st.1).Nodup →
      (∀ x ∈ allMems st.1, x ∈ keys st.2) →
      (∀ x ∈ keys st.2, x ∈ keys pcl) →
      (allMems (l.foldl (stageAClaim contigSeqs c) st).1).Nodup ∧
      (∀ x ∈ allMems (l.foldl (stageAClaim contigSeqs c) st).1,
        x ∈ keys (l.foldl (stageAClaim contigSeqs c) st).2) ∧
      (∀ x ∈ keys (l.foldl (stageAClaim contigSeqs c) st).2, x ∈ keys pcl) := by
  intro l
  induction l with
  | nil => intro st _ h1 h2 h3; exact ⟨h1, h2, h3⟩
  | cons p rest ih =>
    intro st hl h1 h2 h3
    obtain ⟨g1, g2, g3⟩ := stageAClaim_inv contigSeqs pcl c st p
      (hl p (List.mem_cons_self _ _)) h1 h2 h3
    exact ih _ (fun q hq => hl q (List.mem_cons_of_mem _ hq)) g1 g2 g3

/-- The invariant of `stageAClaim_inv` through one ranked cluster. -/
theorem stageAStep_inv (contigSeqs : List (String × String))
    (pcl : List (String × List (String × Int)))
    (st : SC × List (String × String)) (e : String × Int)
    (h1 : (allMems st.1).Nodup)
    (h2 : ∀ x ∈ allMems st.1, x ∈ keys st.2)
    (h3 : ∀ x ∈ keys st.2, x ∈ keys pcl) :
    (allMems (stageAStep contigSeqs pcl st e).1).Nodup ∧
    (∀ x ∈ allMems (stageAStep contigSeqs pcl st e).1,
      x ∈ keys (stageAStep contigSeqs pcl st e).2) ∧
    (∀ x ∈ keys (stageAStep contigSeqs pcl st e).2, x ∈ keys pcl) := by
  simp only [stageAStep]
  have hmems : allMems (if e.1 ∈ keys st.1 then st.1 else st.1 ++ [(e.1, [])])
      = allMems st.1 := by
    split
    · rfl
    · rw [allMems_append]
      simp [allMems, keys]
  refine stageAClaimFold_inv contigSeqs pcl e.1 pcl _
    (fun p hp => List.mem_map_of_mem Prod.fst hp) ?_ ?_ h3
  · rw [hmems]; exact h1
  · rw [hmems]; exact h2

/-- After the greedy claiming stage the memberships are globally
duplicate-free and every member is a contig of `pcl_clusters`. -/
theorem stageA_mems (contigSeqs : List (String × String))
    (pcl : List (String × List (String × Int))) :
    (allMems (stageA contigSeqs pcl).1).Nodup ∧
    (∀ x ∈ allMems (stageA contigSeqs pcl).1, x ∈ keys pcl) := by
  have hfold : ∀ (cs : List (String × Int)) (st : SC × List (String × String)),
      (allMems st.1).Nodup →
      (∀ x ∈ allMems st.1, x ∈ keys st.2) →
      (∀ x ∈ keys st.2, x ∈ keys pcl) →
      (allMems (cs.foldl (stageAStep contigSeqs pcl) st).1).Nodup ∧
      (∀ x ∈ allMems (cs.foldl (stageAStep contigSeqs pcl) st).1,
        x ∈ keys (cs.foldl (stageAStep contigSeqs pcl) st).2) ∧
      (∀ x ∈ keys (cs.foldl (stageAStep contigSeqs pcl) st).2,
        x ∈ keys pcl) := by
    intro cs
    induction cs with
    | nil => intro st h1 h2 h3; exact ⟨h1, h2, h3⟩
    | cons c rest ih =>
      intro st h1 h2 h3
      obtain ⟨g1, g2, g3⟩ := stageAStep_inv contigSeqs pcl st c h1 h2 h3
      exact ih _ g1 g2 g3
  obtain ⟨g1, g2, g3⟩ := hfold (sortedClusterBitscores (clusterBitscores pcl))
    ([], []) (by simp) (by simp) (by simp [keys])
  exact ⟨g1, fun x hx => g3 x (g2 x hx)⟩

/-- The Novel-creation step keeps the memberships globally duplicate-free and
every member a contig of `pcl_clusters` (freshly created `Novel_k` members
enter `pcl_clusters` in the same step). -/
theorem novelStep_mems (contigSeqs : List (String × String))
    (st : NovelState) (m : String)
    (h1 : (allMems st.sc).Nodup)
    (h2 : ∀ x ∈ allMems st.sc, x ∈ keys st.pcl) :
    (allMems (novelStep contigSeqs st m).sc).Nodup ∧
    (∀ x ∈ allMems (novelStep contigSeqs st m).sc,
      x ∈ keys (novelStep contigSeqs st m).pcl) := by
  by_cases hp : m ∈ keys st.pcl
  · simp only [novelStep, if_pos hp]
    exact ⟨h1, h2⟩
  · by_cases hcs : m ∈ keys contigSeqs
    · simp only [novelStep, if_neg hp, if_pos hcs]
      have hsub := allMems_reset_sublist st.sc ("Novel_" ++ toString st.clustId)
      have hget : alistGet (alistSet st.sc ("Novel_" ++ toString st.clustId) [])
          ("Novel_" ++ toString st.clustId) = some [] :=
        alistGet_set_self st.sc _ _
      have hfresh : m ∉ keys ((alistGet
          (alistSet st.sc ("Novel_" ++ toString st.clustId) [])
          ("Novel_" ++ toString st.clustId)).getD []) := by
        rw [hget]
        simp [keys]
      have hperm := allMems_scInsert_perm
        (alistSet st.sc ("Novel_" ++ toString st.clustId) [])
        ("Novel_" ++ toString st.clustId) m
        ((alistGet contigSeqs m).getD "") hfresh
      have hm1 : m ∉ allMems st.sc := fun hx => hp (h2 _ hx)
      have hkeys : keys (alistSet st.pcl m [("Novel_" ++ toString st.clustId,
          (0 : Int))]) = keys st.pcl ++ [m] :=
        keys_alistSet_not_mem st.pcl _ hp
      refine ⟨?_, ?_⟩
      · refine hperm.nodup_iff.mpr (List.nodup_cons.mpr ⟨?_, hsub.nodup h1⟩)
        exact fun hx => hm1 (hsub.mem hx)
      · intro x hx
        rw [hkeys]
        rcases List.mem_cons.mp (hperm.mem_iff.mp hx) with he | ht
        · exact List.mem_append_right _ (by simp [he])
        · exact List.mem_append_left _ (h2 x (hsub.mem ht))
    · simp only [novelStep, if_neg hp, if_neg hcs]
      exact ⟨h1, h2⟩

/-- The invariant of `novelStep_mems` through a marker loop. -/
theorem novelFold_mems (contigSeqs : List (String × String)) :
    ∀ (ms : List String) (st : NovelState),
      (allMems st.sc).Nodup →
      (∀ x ∈ allMems st.sc, x ∈ keys st.pcl) →
      (allMems (ms.foldl (novelStep contigSeqs) st).sc).Nodup ∧
      (∀ x ∈ allMems (ms.foldl (novelStep contigSeqs) st).sc,
        x ∈ keys (ms.foldl (novelStep contigSeqs) st).pcl) := by
  intro ms
  induction ms with
  | nil => intro st h1 h2; exact ⟨h1, h2⟩
  | cons m rest ih =>
    intro st h1 h2
    obtain ⟨g1, g2⟩ := novelStep_mems contigSeqs st m h1 h2
    exact ih _ g1 g2

/-- After both marker loops the memberships are globally duplicate-free. -/
theorem stageB_mems (contigSeqs : List (String × String))
    (mobKeys replKeys : List String)
    (pcl : List (String × List (String × Int))) (sc : SC)
    (h1 : (allMems sc).Nodup) (h2 : ∀ x ∈ allMems sc, x ∈ keys pcl) :
    (allMems (stageB contigSeqs mobKeys replKeys pcl sc).sc).Nodup := by
  simp only [stageB]
  obtain ⟨g1, g2⟩ := novelFold_mems contigSeqs mobKeys
    { pcl := pcl, sc := sc, clustId := 0, kLog := [] } h1 h2
  exact (novelFold_mems contigSeqs replKeys _ g1 g2).1

/-- One splitter member step: with the member fresh to all memberships, the
memberships stay globally duplicate-free and grow by at most that member. -/
theorem splitMemberStep_mems (circular : List String)
    (replClusters : List (String × Nat)) (id : String) (origSize : Nat)
    (st : SplitState) (mem : String × String)
    (hm : mem.1 ∉ allMems st.refined)
    (h1 : (allMems st.refined).Nodup) :
    (allMems (splitMemberStep circular replClusters id origSize
        st mem).refined).Nodup ∧
    (∀ x ∈ allMems (splitMemberStep circular replClusters id origSize
        st mem).refined, x ∈ allMems st.refined ∨ x = mem.1) := by
  by_cases hcond : splitCond circular replClusters id origSize mem.1
  · simp only [splitMemberStep, if_pos hcond]
    have hsub := allMems_reset_sublist st.refined
      ("Novel_" ++ toString st.clustId)
    have hget : alistGet (alistSet st.refined
        ("Novel_" ++ toString st.clustId) [])
        ("Novel_" ++ toString st.clustId) = some [] :=
      alistGet_set_self st.refined _ _
    have hfresh : mem.1 ∉ keys ((alistGet
        (alistSet st.refined ("Novel_" ++ toString st.clustId) [])
        ("Novel_" ++ toString st.clustId)).getD []) := by
      rw [hget]
      simp [keys]
    have hperm := allMems_scInsert_perm
      (alistSet st.refined ("Novel_" ++ toString st.clustId) [])
      ("Novel_" ++ toString st.clustId) mem.1 mem.2 hfresh
    refine ⟨?_, ?_⟩
    · refine hperm.nodup_iff.mpr (List.nodup_cons.mpr ⟨?_, hsub.nodup h1⟩)
      exact fun hx => hm (hsub.mem hx)
    · intro x hx
      rcases List.mem_cons.mp (hperm.mem_iff.mp hx) with he | ht
      · exact Or.inr he
      · exact Or.inl (hsub.mem ht)
  · simp only [splitMemberStep, if_neg hcond]
    have hfresh : mem.1 ∉ keys ((alistGet st.refined id).getD []) :=
      fun hx => hm (keys_get_subset_allMems _ _ _ hx)
    have hperm := allMems_scInsert_perm st.refined id mem.1 mem.2 hfresh
    refine ⟨?_, ?_⟩
    · exact hperm.nodup_iff.mpr (List.nodup_cons.mpr ⟨hm, h1⟩)
    · intro x hx
      rcases List.mem_cons.mp (hperm.mem_iff.mp hx) with he | ht
      · exact Or.inr he
      · exact Or.inl ht

/-- The invariant of `splitMemberStep_mems` through one cluster's members. -/
theorem splitMemberFold_mems (circular : List String)
    (replClusters : List (String × Nat)) (id : String) (origSize : Nat) :
    ∀ (mems : Members) (st : SplitState),
      (allMems st.refined ++ mems.map Prod.fst).Nodup →
      (allMems (mems.foldl (splitMemberStep circular replClusters id origSize)
          st).refined).Nodup ∧
      (∀ x ∈ allMems (mems.foldl
          (splitMemberStep circular replClusters id origSize) st).refined,
        x ∈ allMems st.refined ∨ x ∈ mems.map Prod.fst) := by
  intro mems
  induction mems with
  | nil =>
    intro st h
    exact ⟨by simpa using h, fun x hx => Or.inl hx⟩
  | cons m rest ih =>
    intro st h
    have hsplit := List.nodup_append.mp h
    have hm : m.1 ∉ allMems st.refined := by
      intro hx
      exact hsplit.2.2 hx (by simp)
    obtain ⟨g1, g2⟩ := splitMemberStep_mems circular replClusters id origSize
      st m hm hsplit.1
    have hnd' : (allMems (splitMemberStep circular replClusters id origSize
        st m).refined ++ rest.map Prod.fst).Nodup := by
      rw [List.nodup_append]
      refine ⟨g1, (List.nodup_cons.mp (by simpa using hsplit.2.1)).2, ?_⟩
      intro x hx hx'
      rcases g2 x hx with h' | h'
      · exact hsplit.2.2 h' (by simp [hx'])
      · exact (List.nodup_cons.mp (by simpa using hsplit.2.1)).1 (h' ▸ hx')
    obtain ⟨f1, f2⟩ := ih _ hnd'
    rw [List.foldl_cons]
    refine ⟨f1, ?_⟩
    intro x hx
    rcases f2 x hx with h' | h'
    · rcases g2 x h' with h'' | h''
      · exact Or.inl h''
      · exact Or.inr (by simp [h''])
    · exact Or.inr (List.mem_cons_of_mem _ h')

/-- One splitter cluster keeps the memberships globally duplicate-free. -/
theorem splitClusterStep_mems (circular : List String)
    (replClusters : List (String × Nat)) (st : SplitState)
    (e : String × Members)
    (h : (allMems st.refined ++ keys e.2).Nodup) :
    (allMems (splitClusterStep circular replClusters st e).refined).Nodup ∧
    (∀ x ∈ allMems (splitClusterStep circular replClusters st e).refined,
      x ∈ allMems st.refined ∨ x ∈ keys e.2) := by
  simp only [splitClusterStep]
  by_cases hk : e.1 ∈ keys st.refined
  · rw [if_pos hk]
    exact splitMemberFold_mems circular replClusters e.1 e.2.length e.2 st h
  · rw [if_neg hk]
    have hmems : allMems (st.refined ++ [(e.1, [])]) = allMems st.refined := by
      rw [allMems_append]
      simp [allMems, keys]
    obtain ⟨g1, g2⟩ := splitMemberFold_mems circular replClusters e.1
      e.2.length e.2 { st with refined := st.refined ++ [(e.1, [])] }
      (by rw [hmems] at *; exact h)
    refine ⟨g1, ?_⟩
    intro x hx
    rcases g2 x hx with h' | h'
    · exact Or.inl (by rwa [hmems] at h')
    · exact Or.inr h'

/-- The Circular Splitter keeps the memberships globally duplicate-free. -/
theorem splitFold_mems (circular : List String)
    (replClusters : List (String × Nat)) :
    ∀ (sc : SC) (st : SplitState),
      (allMems st.refined ++ allMems sc).Nodup →
      (allMems (sc.foldl (splitClusterStep circular replClusters)
          st).refined).Nodup ∧
      (∀ x ∈ allMems (sc.foldl (splitClusterStep circular replClusters)
          st).refined, x ∈ allMems st.refined ∨ x ∈ allMems sc) := by
  intro sc
  induction sc with
  | nil =>
    intro st h
    exact ⟨by simpa using h, fun x hx => Or.inl hx⟩
  | cons e rest ih =>
    intro st h
    have hnd3 := h
    rw [allMems_cons, ← List.append_assoc] at hnd3
    have hsplit3 := List.nodup_append.mp hnd3
    obtain ⟨g1, g2⟩ := splitClusterStep_mems circular replClusters st e
      hsplit3.1
    have hnd' : (allMems (splitClusterStep circular replClusters st e).refined
        ++ allMems rest).Nodup := by
      rw [List.nodup_append]
      refine ⟨g1, hsplit3.2.1, ?_⟩
      intro x hx hx'
      rcases g2 x hx with h' | h'
      · exact hsplit3.2.2 (List.mem_append_left _ h') hx'
      · exact hsplit3.2.2 (List.mem_append_right _ h') hx'
    obtain ⟨f1, f2⟩ := ih _ hnd'
    rw [List.foldl_cons]
    refine ⟨f1, ?_⟩
    intro x hx
    rcases f2 x hx with h' | h'
    · rcases g2 x h' with h'' | h''
      · exact Or.inl h''
      · exact Or.inr (by rw [allMems_cons]; exact List.mem_append_left _ h'')
    · exact Or.inr (by rw [allMems_cons]; exact List.mem_append_right _ h')

/-- Counting report rows produced as a member map counts member ids. -/
theorem countP_contig_eq_count (members : Members)
    (f : String × String → ReportRow) (hf : ∀ m, (f m).contig = m.1)
    (x : String) :
    (members.map f).countP (fun r => r.contig == x) =
      (members.map Prod.fst).count x := by
  induction members with
  | nil => rfl
  | cons m rest ih =>
    simp only [List.map_cons, List.countP_cons, List.count_cons, hf m, ih]

/-- Count of a released contig among the chromosome candidates. -/
theorem count_fst_filter_not_mem (l : List (String × String))
    (fl : List String) (x : String) (hx : x ∉ fl) :
    (((l.filter fun e => e.1 ∉ fl).map Prod.fst).count x) =
      ((l.map Prod.fst).count x) := by
  induction l with
  | nil => rfl
  | cons e t ih =>
    by_cases he : e.1 ∈ fl
    · have hne : e.1 ≠ x := fun hc => hx (hc ▸ he)
      rw [List.filter_cons, if_neg (by simpa using he)]
      rw [List.map_cons, List.count_cons, ih]
      simp [hne]
    · rw [List.filter_cons, if_pos (by simpa using he)]
      rw [List.map_cons, List.map_cons, List.count_cons, List.count_cons, ih]

/-- A retained contig never appears among the chromosome candidates. -/
theorem count_fst_filter_mem (l : List (String × String)) (fl : List String)
    (x : String) (hx : x ∈ fl) :
    (((l.filter fun e => e.1 ∉ fl).map Prod.fst).count x) = 0 := by
  rw [List.count_eq_zero]
  intro hc
  obtain ⟨e, he, heq⟩ := List.mem_map.mp hc
  have hmem := List.of_mem_filter he
  rw [heq] at hmem
  have hnot : x ∉ fl := by simpa using hmem
  exact hnot hx

/-- One cluster of the classifier/namer/report loop preserves the row-count
bookkeeping: the retained contigs are exactly the filter-list entries, and
the report mentions each retained contig exactly once. -/
theorem processCluster_partition (repetitive : List (String × String))
    (replicon mob : List (String × List String)) (circular : List String)
    (oracle : Members → MashHit) (st : EmitState) (e : String × Members)
    (L : List String)
    (hflsub : ∀ x ∈ st.filterList, x ∈ L)
    (hnd : (L ++ keys e.2).Nodup)
    (hcount : ∀ x, st.rows.countP (fun r => r.contig == x) =
      if x ∈ st.filterList then 1 else 0) :
    (∀ x ∈ (processCluster repetitive replicon mob circular oracle st
        e).filterList, x ∈ L ++ keys e.2) ∧
    (∀ x, (processCluster repetitive replicon mob circular oracle st
        e).rows.countP (fun r => r.contig == x) =
      if x ∈ (processCluster repetitive replicon mob circular oracle st
        e).filterList then 1 else 0) := by
  have hndsplit := List.nodup_append.mp hnd
  have hndK : (e.2.map Prod.fst).Nodup := hndsplit.2.1
  have hdisj' : ∀ m ∈ e.2, m.1 ∉ st.filterList := by
    intro m hm hx
    exact hndsplit.2.2 (hflsub _ hx) (List.mem_map_of_mem Prod.fst hm)
  have hadd : e.2.foldl (fun fl m => flAdd fl m.1) st.filterList =
      st.filterList ++ e.2.map Prod.fst :=
    addAll_eq_append e.2 st.filterList hdisj' hndK
  by_cases h1 : clusterDiscard repetitive e.2 = some true
  · simp only [processCluster, if_pos h1]
    exact ⟨fun x hx => List.mem_append_left _ (hflsub x hx), hcount⟩
  · by_cases h2 : mashThreshold < (oracle e.2).mash_hit_score ∧
        ¬ hasMarkerEvidence replicon mob circular e.2
    · simp only [processCluster, if_neg h1, if_pos h2]
      rw [hadd, eraseAll_append e.2 st.filterList hdisj' hndK]
      exact ⟨fun x hx => List.mem_append_left _ (hflsub x hx), hcount⟩
    · simp only [processCluster, if_neg h1, if_neg h2]
      rw [hadd]
      refine ⟨?_, ?_⟩
      · intro x hx
        rcases List.mem_append.mp hx with h' | h'
        · exact List.mem_append_left _ (hflsub x h')
        · exact List.mem_append_right _ h'
      · intro x
        rw [List.countP_append, hcount x,
          countP_contig_eq_count e.2 _ (fun m => rfl) x]
        by_cases hxk : x ∈ e.2.map Prod.fst
        · have hxfl : x ∉ st.filterList := by
            intro hc
            exact hndsplit.2.2 (hflsub _ hc) hxk
          rw [if_neg hxfl, if_pos (List.mem_append_right _ hxk),
            List.count_eq_one_of_mem hndK hxk]
        · rw [List.count_eq_zero_of_not_mem hxk]
          by_cases hxfl : x ∈ st.filterList
          · rw [if_pos hxfl, if_pos (List.mem_append_left _ hxfl)]
          · rw [if_neg hxfl, if_neg (by
              intro hc
              rcases List.mem_append.mp hc with h' | h'
              · exact hxfl h'
              · exact hxk h')]

/-- The bookkeeping of `processCluster_partition` through the whole loop. -/
theorem emitFold_partition (repetitive : List (String × String))
    (replicon mob : List (String × List String)) (circular : List String)
    (oracle : Members → MashHit) :
    ∀ (sc : SC) (st : EmitState) (L : List String),
      (∀ x ∈ st.filterList, x ∈ L) →
      (L ++ allMems sc).Nodup →
      (∀ x, st.rows.countP (fun r => r.contig == x) =
        if x ∈ st.filterList then 1 else 0) →
      (∀ x ∈ (sc.foldl (processCluster repetitive replicon mob circular
          oracle) st).filterList, x ∈ L ++ allMems sc) ∧
      (∀ x, (sc.foldl (processCluster repetitive replicon mob circular
          oracle) st).rows.countP (fun r => r.contig == x) =
        if x ∈ (sc.foldl (processCluster repetitive replicon mob circular
          oracle) st).filterList then 1 else 0) := by
  intro sc
  induction sc with
  | nil =>
    intro st L hflsub _ hcount
    exact ⟨fun x hx => by simpa using hflsub x hx, hcount⟩
  | cons e rest ih =>
    intro st L hflsub hnd hcount
    have hnd3 := hnd
    rw [allMems_cons, ← List.append_assoc] at hnd3
    obtain ⟨g1, g2⟩ := processCluster_partition repetitive replicon mob
      circular oracle st e L hflsub
      ((List.nodup_append.mp hnd3).1) hcount
    obtain ⟨f1, f2⟩ := ih (processCluster repetitive replicon mob circular
      oracle st e) (L ++ keys e.2) g1 hnd3 g2
    rw [List.foldl_cons]
    refine ⟨?_, f2⟩
    intro x hx
    rcases List.mem_append.mp (f1 x hx) with h' | h'
    · rcases List.mem_append.mp h' with h'' | h''
      · exact List.mem_append_left _ h''
      · exact List.mem_append_right _
          (by rw [allMems_cons]; exact List.mem_append_left _ h'')
    · exact List.mem_append_right _
        (by rw [allMems_cons]; exact List.mem_append_right _ h')

/-- With the bookkeeping established, every assembly contig gets exactly one
report row (its cluster row when retained, its chromosome row otherwise). -/
theorem report_count_of_invariants (contigSeqs : List (String × String))
    (circular : List String) (E : EmitState)
    (hnd : (keys contigSeqs).Nodup)
    (hcount : ∀ x, E.rows.countP (fun r => r.contig == x) =
      if x ∈ E.filterList then 1 else 0)
    (cid : String) (hcid : cid ∈ keys contigSeqs) :
    ((E.rows ++ chromosomeRows contigSeqs circular E.filterList).countP
      (fun r => r.contig == cid)) = 1 := by
  rw [List.countP_append, hcount cid, chromosomeRows,
    countP_contig_eq_count _ _ (fun m => rfl) cid]
  by_cases hfl : cid ∈ E.filterList
  · rw [if_pos hfl, count_fst_filter_mem contigSeqs E.filterList cid hfl]
  · rw [if_neg hfl, count_fst_filter_not_mem contigSeqs E.filterList cid hfl]
    have h1 : (List.map Prod.fst contigSeqs).count cid = 1 :=
      List.count_eq_one_of_mem hnd hcid
    rw [h1]

/-- The memberships entering the classifier/namer/report loop are globally
duplicate-free: no contig id is in two clusters, and none is in one cluster
twice. -/
theorem pipeline_mems_nodup (inp : PipelineInput) :
    (allMems (stageD inp.circular
      (buildRepliconClusters inp.replicon
        (stageB inp.contigSeqs (inp.mob.map Prod.fst)
          (inp.replicon.map Prod.fst)
          (contig_blast_group inp.minOverlap inp.hits)
          (stageA inp.contigSeqs
            (contig_blast_group inp.minOverlap inp.hits)).1).pcl)
      (stageB inp.contigSeqs (inp.mob.map Prod.fst)
        (inp.replicon.map Prod.fst)
        (contig_blast_group inp.minOverlap inp.hits)
        (stageA inp.contigSeqs
          (contig_blast_group inp.minOverlap inp.hits)).1).sc
      (stageB inp.contigSeqs (inp.mob.map Prod.fst)
        (inp.replicon.map Prod.fst)
        (contig_blast_group inp.minOverlap inp.hits)
        (stageA inp.contigSeqs
          (contig_blast_group inp.minOverlap inp.hits)).1).clustId
      (stageB inp.contigSeqs (inp.mob.map Prod.fst)
        (inp.replicon.map Prod.fst)
        (contig_blast_group inp.minOverlap inp.hits)
        (stageA inp.contigSeqs
          (contig_blast_group inp.minOverlap inp.hits)).1).kLog).refined).Nodup
    := by
  obtain ⟨hA1, hA2⟩ := stageA_mems inp.contigSeqs
    (contig_blast_group inp.minOverlap inp.hits)
  have hB := stageB_mems inp.contigSeqs (inp.mob.map Prod.fst)
    (inp.replicon.map Prod.fst) _ _ hA1 hA2
  rw [stageD]
  exact (splitFold_mems inp.circular _ _ _ (by simpa using hB)).1

/-- C1: every contig id of the input assembly (a fasta-parsed dict, hence
with duplicate-free ids) appears in exactly one group of the final contig
report — exactly one row carries it, either under its retained plasmid
cluster or under `chromosome`; the stage lemmas behind this show the
membership lists are duplicate-free at every stage. -/
theorem contig_report_partition (inp : PipelineInput)
    (oracle : Members → MashHit)
    (hnd : (keys inp.contigSeqs).Nodup)
    (cid : String) (hcid : cid ∈ keys inp.contigSeqs) :
    (mainPipeline inp oracle).rows.countP (fun r => r.contig == cid) = 1 := by
  have hD := pipeline_mems_nodup inp
  rw [mainPipeline]
  simp only
  refine report_count_of_invariants inp.contigSeqs inp.circular _ hnd ?_
    cid hcid
  exact (emitFold_partition inp.repetitive inp.replicon inp.mob inp.circular
    oracle _ _ [] (fun x hx => hx) (by simpa using hD)
    (fun x => by simp)).2

/-- C1 witness: on the concrete assembly `exInpC1` the hypotheses hold and
contig `c1` gets exactly one report row. -/
theorem contig_report_partition_witness :
    (keys exInpC1.contigSeqs).Nodup ∧ "c1" ∈ keys exInpC1.contigSeqs ∧
    (mainPipeline exInpC1 exOracleLow).rows.countP
      (fun r => r.contig == "c1") = 1 :=
  ⟨by decide, by decide,
    contig_report_partition exInpC1 exOracleLow (by decide) "c1" (by decide)⟩

end MobRecon
